import Mathlib

/-!
Verification of the QREM repository (DetectorTomography.py, povmtools.py)
against its natural-language specification.

Conventions of the shallow embedding:
* machine floating-point reals are embedded as exact scalars (rationals for
  the simplex-projection algorithm, real / complex numbers for the matrix
  algorithms);
* numpy complex square matrices are embedded either as Mathlib matrices
  over a `Fin`-indexed type (detector-tomography fitter) or, where the
  dimension varies through the algorithm, as total functions
  `Nat -> Nat -> Complex` supported on the relevant square block;
* Python's `sorted` (a stable sort) is embedded by `List.mergeSort`;
* exceptional numpy calls (`np.linalg.inv` raising `LinAlgError`) are
  embedded with `Except`.
-/

set_option maxHeartbeats 1000000
set_option synthInstance.maxHeartbeats 400000

namespace QREM

/-! ## povmtools.find_closest_prob_vector -/

/-- Body of the descending loop `for i in np.arange(0, d)[::-1]` of
`find_closest_prob_vector` (povmtools.py lines 326-344).  The argument list is
the reversed `p1_sorted` (so that the head is `p1_sorted[i]`, the smallest
remaining entry, and `rest.length = i`), and `a` is the accumulator.  The
first branch is the `mu_i + a/(i+1) < 0` branch (fold the value into the
accumulator and zero the entry); the second branch distributes `a/(i+1)` over
the remaining entries `0..i` and stops, mirroring the `break`. -/
def waterfill : List (ℕ × ℚ) → ℚ → List (ℕ × ℚ)
  | [], _ => []
  | (idx, mu) :: rest, a =>
    if mu + a / ((rest.length : ℚ) + 1) < 0 then
      (idx, 0) :: waterfill rest (a + mu)
    else
      (idx, mu + a / ((rest.length : ℚ) + 1)) ::
        rest.map (fun p => (p.1, p.2 + a / ((rest.length : ℚ) + 1)))

/-- Embedding of `find_closest_prob_vector` (povmtools.py lines 287-352).
`p1` pairs every entry with its original index, `p1_sorted` sorts the pairs in
descending order of value (stable, like Python's `sorted`), the water-filling
loop is `waterfill` on the reversed list, `ordered_p` restores the original
index order and the final map drops the indices. -/
def find_closest_prob_vector (quasiprobability_vector : List ℚ) : List ℚ :=
  let d := quasiprobability_vector.length
  let p000 := quasiprobability_vector
  let p1 := (List.range d).zip p000
  let p1_sorted := p1.mergeSort (fun p q => decide (q.2 ≤ p.2))
  let p_filled := (waterfill p1_sorted.reverse 0).reverse
  let ordered_p := p_filled.mergeSort (fun p q => decide (p.1 ≤ q.1))
  ordered_p.map Prod.snd

/-- Sum of the values (second components) of an index-value pair list. -/
def sumSnd (l : List (ℕ × ℚ)) : ℚ := (l.map Prod.snd).sum

theorem waterfill_length (l : List (ℕ × ℚ)) (a : ℚ) :
    (waterfill l a).length = l.length := by
  induction l generalizing a with
  | nil => rfl
  | cons p rest ih =>
    obtain ⟨idx, mu⟩ := p
    by_cases h : mu + a / ((rest.length : ℚ) + 1) < 0 <;>
      simp [waterfill, h, ih]

theorem sumSnd_map_add (l : List (ℕ × ℚ)) (c : ℚ) :
    sumSnd (l.map (fun p => (p.1, p.2 + c))) = sumSnd l + l.length * c := by
  induction l with
  | nil => simp [sumSnd]
  | cons p rest ih =>
    simp only [sumSnd, List.map_cons, List.sum_cons, List.length_cons] at *
    push_cast
    linarith

theorem waterfill_sumSnd (l : List (ℕ × ℚ)) (a : ℚ) (hne : l ≠ [])
    (h : 0 ≤ sumSnd l + a) : sumSnd (waterfill l a) = sumSnd l + a := by
  induction l generalizing a with
  | nil => exact absurd rfl hne
  | cons p rest ih =>
    obtain ⟨idx, mu⟩ := p
    by_cases hc : mu + a / ((rest.length : ℚ) + 1) < 0
    · cases rest with
      | nil =>
        exfalso
        simp only [sumSnd, List.map_cons, List.map_nil, List.sum_cons,
          List.sum_nil, List.length_nil, Nat.cast_zero, zero_add, div_one] at h hc
        linarith
      | cons q rest' =>
        have hsum : 0 ≤ sumSnd (q :: rest') + (a + mu) := by
          simp only [sumSnd, List.map_cons, List.sum_cons] at h ⊢
          linarith
        have := ih (a := a + mu) (by simp) hsum
        simp only [waterfill, hc, if_true, sumSnd, List.map_cons, List.sum_cons] at *
        linarith
    · have hlen : ((rest.length : ℚ) + 1) ≠ 0 := by positivity
      simp only [waterfill, hc, if_false, sumSnd, List.map_cons, List.sum_cons]
      have := sumSnd_map_add rest (a / ((rest.length : ℚ) + 1))
      simp only [sumSnd] at this
      rw [this]
      field_simp
      ring

theorem waterfill_nonneg (l : List (ℕ × ℚ)) (a : ℚ)
    (hs : l.Pairwise (fun p q => p.2 ≤ q.2)) :
    ∀ p ∈ waterfill l a, 0 ≤ p.2 := by
  induction l generalizing a with
  | nil => intro p hp; simp [waterfill] at hp
  | cons p rest ih =>
    obtain ⟨idx, mu⟩ := p
    rw [List.pairwise_cons] at hs
    intro q hq
    by_cases hc : mu + a / ((rest.length : ℚ) + 1) < 0
    · simp only [waterfill, hc, if_true, List.mem_cons] at hq
      rcases hq with h | h
      · simp [h]
      · exact ih (a + mu) hs.2 q h
    · push_neg at hc
      simp only [waterfill, hc.not_lt, if_false, List.mem_cons, List.mem_map] at hq
      rcases hq with h | ⟨r, hr, h⟩
      · simp only [h]; exact hc
      · have hmu : mu ≤ r.2 := hs.1 r hr
        have : q.2 = r.2 + a / ((rest.length : ℚ) + 1) := by rw [← h]
        rw [this]
        linarith

theorem sumSnd_perm {l₁ l₂ : List (ℕ × ℚ)} (h : l₁.Perm l₂) : sumSnd l₁ = sumSnd l₂ :=
  List.Perm.sum_eq (List.Perm.map Prod.snd h)

theorem sumSnd_reverse (l : List (ℕ × ℚ)) : sumSnd l.reverse = sumSnd l := by
  simp [sumSnd, List.map_reverse, List.sum_reverse]

theorem descSnd_trans :
    ∀ a b c : ℕ × ℚ, (decide (b.2 ≤ a.2)) = true → (decide (c.2 ≤ b.2)) = true →
      (decide (c.2 ≤ a.2)) = true := by
  intro a b c h1 h2
  simp only [decide_eq_true_eq] at *
  exact le_trans h2 h1

theorem descSnd_total :
    ∀ a b : ℕ × ℚ, ((decide (b.2 ≤ a.2)) || (decide (a.2 ≤ b.2))) = true := by
  intro a b
  simpa using le_total b.2 a.2

theorem find_closest_prob_vector_props (l : List ℚ) (hsum : l.sum = 1) :
    (find_closest_prob_vector l).length = l.length ∧
      (∀ x ∈ find_closest_prob_vector l, 0 ≤ x) ∧
      (find_closest_prob_vector l).sum = 1 := by
  have hne : l ≠ [] := by rintro rfl; simp at hsum
  set d := l.length with hd
  set p1 := (List.range d).zip l with hp1
  have hp1len : p1.length = d := by simp [hp1, hd]
  have hp1snd : p1.map Prod.snd = l := List.map_snd_zip _ _ (by simp [hd])
  set ms := p1.mergeSort (fun p q => decide (q.2 ≤ p.2)) with hms
  have hperm : ms.Perm p1 := List.mergeSort_perm _ _
  have hsorted : ms.Pairwise (fun p q => q.2 ≤ p.2) := by
    have := List.sorted_mergeSort descSnd_trans descSnd_total p1
    exact this.imp (fun h => by simpa using h)
  have hrevsorted : ms.reverse.Pairwise (fun p q => p.2 ≤ q.2) :=
    List.pairwise_reverse.mpr hsorted
  have hmslen : ms.length = d := hperm.length_eq.trans hp1len
  have hdpos : 0 < d := by rw [hd]; exact List.length_pos.mpr hne
  have hrevne : ms.reverse ≠ [] := by
    intro hcon
    have hlen := congrArg List.length hcon
    simp only [List.length_reverse, hmslen, List.length_nil] at hlen
    omega
  have hsnd1 : sumSnd ms.reverse = 1 := by
    rw [sumSnd_reverse, sumSnd_perm hperm]
    simp only [sumSnd, hp1snd, hsum]
  set wf := waterfill ms.reverse 0 with hwf
  have hwfsum : sumSnd wf = 1 := by
    rw [hwf, waterfill_sumSnd _ _ hrevne (by rw [hsnd1]; norm_num)]
    rw [hsnd1]; norm_num
  have hwfnonneg : ∀ p ∈ wf, 0 ≤ p.2 := waterfill_nonneg _ _ hrevsorted
  have hwflen : wf.length = d := by
    rw [hwf, waterfill_length]; simp [hmslen]
  set ord := wf.reverse.mergeSort (fun p q => decide (p.1 ≤ q.1)) with hord
  have hop : ord.Perm wf.reverse := List.mergeSort_perm _ _
  have hout : find_closest_prob_vector l = ord.map Prod.snd := rfl
  refine ⟨?_, ?_, ?_⟩
  · rw [hout]
    simp only [List.length_map]
    rw [hop.length_eq]
    simp [hwflen, hd]
  · rw [hout]
    intro x hx
    obtain ⟨p, hp, rfl⟩ := List.mem_map.mp hx
    exact hwfnonneg p (List.mem_reverse.mp (hop.mem_iff.mp hp))
  · rw [hout]
    have : sumSnd ord = sumSnd wf.reverse := sumSnd_perm hop
    rw [show (ord.map Prod.snd).sum = sumSnd ord from rfl, this, sumSnd_reverse, hwfsum]

/-- C4: simplex projection: on any rational input summing to 1 the result of
`find_closest_prob_vector` has the same length, is entrywise non-negative and
sums to 1; and on the concrete input [0.6, 0.6, -0.2] of the spec it returns
[0.5, 0.5, 0.0]. -/
theorem find_closest_prob_vector_correct :
    (∀ l : List ℚ, l.sum = 1 →
      (find_closest_prob_vector l).length = l.length ∧
        (∀ x ∈ find_closest_prob_vector l, 0 ≤ x) ∧
        (find_closest_prob_vector l).sum = 1) ∧
    find_closest_prob_vector [3/5, 3/5, -1/5] = [1/2, 1/2, 0] := by
  constructor
  · exact find_closest_prob_vector_props
  · norm_num [find_closest_prob_vector, waterfill, List.mergeSort, List.range_succ]

/-- Witness for C4 at the concrete input [0.6, 0.6, -0.2]. -/
theorem find_closest_prob_vector_correct_witness :
    ([3/5, 3/5, -1/5] : List ℚ).sum = 1 ∧
      (find_closest_prob_vector [3/5, 3/5, -1/5]).length = 3 ∧
      (∀ x ∈ find_closest_prob_vector [3/5, 3/5, -1/5], 0 ≤ x) ∧
      (find_closest_prob_vector [3/5, 3/5, -1/5]).sum = 1 := by
  have h := find_closest_prob_vector_correct.1 [3/5, 3/5, -1/5] (by norm_num)
  exact ⟨by norm_num, h.1, h.2.1, h.2.2⟩

theorem ascFst_trans :
    ∀ a b c : ℕ × ℚ, (decide (a.1 ≤ b.1)) = true → (decide (b.1 ≤ c.1)) = true →
      (decide (a.1 ≤ c.1)) = true := by
  intro a b c h1 h2
  simp only [decide_eq_true_eq] at *
  exact le_trans h1 h2

theorem ascFst_total :
    ∀ a b : ℕ × ℚ, ((decide (a.1 ≤ b.1)) || (decide (b.1 ≤ a.1))) = true := by
  intro a b
  simpa using le_total a.1 b.1

theorem eq_of_perm_of_pairwise_keyLt {α β : Type*} [Preorder β] (key : α → β)
    {l₁ l₂ : List α} (hp : l₁.Perm l₂)
    (h₁ : l₁.Pairwise (fun a b => key a < key b))
    (h₂ : l₂.Pairwise (fun a b => key a < key b)) : l₁ = l₂ := by
  haveI : IsAntisymm α (fun a b => key a < key b) :=
    ⟨fun a b hab hba => absurd hba (lt_asymm hab)⟩
  exact List.eq_of_perm_of_sorted hp h₁ h₂

/-- C9: projecting a vector that is already a valid probability vector (all
entries non-negative, summing to 1) returns it unchanged. -/
theorem find_closest_prob_vector_idempotent (l : List ℚ)
    (hnn : ∀ x ∈ l, 0 ≤ x) (hsum : l.sum = 1) :
    find_closest_prob_vector l = l := by
  have hne : l ≠ [] := by rintro rfl; simp at hsum
  set d := l.length with hd
  set p1 := (List.range d).zip l with hp1
  have hp1len : p1.length = d := by simp [hp1, hd]
  have hp1snd : p1.map Prod.snd = l := List.map_snd_zip _ _ (by simp [hd])
  have hp1fst : p1.map Prod.fst = List.range d := List.map_fst_zip _ _ (by simp [hd])
  set ms := p1.mergeSort (fun p q => decide (q.2 ≤ p.2)) with hms
  have hperm : ms.Perm p1 := List.mergeSort_perm _ _
  have hmslen : ms.length = d := hperm.length_eq.trans hp1len
  have hdpos : 0 < d := by rw [hd]; exact List.length_pos.mpr hne
  -- the reversed sorted list is nonempty and its head value is non-negative,
  -- so the very first loop step takes the `break` branch with accumulator 0
  have hwf : waterfill ms.reverse 0 = ms.reverse := by
    cases hrev : ms.reverse with
    | nil =>
      have hlen := congrArg List.length hrev
      simp only [List.length_reverse, hmslen, List.length_nil] at hlen
      omega
    | cons h t =>
      have hh : h ∈ ms.reverse := by rw [hrev]; exact List.mem_cons_self h t
      have hh2 : h.2 ∈ l := by
        have hmem : h ∈ p1 := hperm.mem_iff.mp (List.mem_reverse.mp hh)
        have := List.of_mem_zip (show (h.1, h.2) ∈ (List.range d).zip l from hmem)
        exact this.2
      have hhnn : 0 ≤ h.2 := hnn _ hh2
      obtain ⟨h1, h2⟩ := h
      have hcond : ¬ (h2 < 0) := not_lt.mpr hhnn
      simp only [waterfill, zero_div, add_zero, hcond, if_false]
      congr 1
      simp
  have hout : find_closest_prob_vector l =
      ((waterfill ms.reverse 0).reverse.mergeSort
        (fun p q => decide (p.1 ≤ q.1))).map Prod.snd := rfl
  rw [hout, hwf, List.reverse_reverse]
  set ord := ms.mergeSort (fun p q => decide (p.1 ≤ q.1)) with hord
  have hop : ord.Perm p1 := (List.mergeSort_perm _ _).trans hperm
  -- `p1` is strictly sorted by index, `ord` is sorted by index with no
  -- duplicate indices, hence they are equal
  have hp1lt : p1.Pairwise (fun p q => p.1 < q.1) := by
    have := List.pairwise_lt_range d
    rw [← hp1fst, List.pairwise_map] at this
    exact this
  have hordle : ord.Pairwise (fun p q => p.1 ≤ q.1) := by
    have := List.sorted_mergeSort ascFst_trans ascFst_total ms
    exact this.imp (fun h => by simpa using h)
  have hordnd : (ord.map Prod.fst).Nodup := by
    have : (p1.map Prod.fst).Nodup := by rw [hp1fst]; exact List.nodup_range d
    exact ((hop.map Prod.fst).symm.nodup) this
  have hordne : ord.Pairwise (fun p q => p.1 ≠ q.1) :=
    List.pairwise_map.mp hordnd
  have hordlt : ord.Pairwise (fun p q => p.1 < q.1) :=
    (hordle.and hordne).imp (fun h => lt_of_le_of_ne h.1 h.2)
  have : ord = p1 := eq_of_perm_of_pairwise_keyLt Prod.fst hop hordlt hp1lt
  rw [this, hp1snd]

/-- Witness for C9 at the concrete probability vector [1/2, 1/2]. -/
theorem find_closest_prob_vector_idempotent_witness :
    (∀ x ∈ ([1/2, 1/2] : List ℚ), 0 ≤ x) ∧ ([1/2, 1/2] : List ℚ).sum = 1 ∧
      find_closest_prob_vector [1/2, 1/2] = [1/2, 1/2] := by
  have hmem : ∀ x ∈ ([1/2, 1/2] : List ℚ), 0 ≤ x := by
    intro x hx
    simp only [List.mem_cons, List.not_mem_nil, or_false] at hx
    rcases hx with rfl | rfl <;> norm_num
  exact ⟨hmem, by norm_num,
    find_closest_prob_vector_idempotent _ hmem (by norm_num)⟩

/-! ## povmtools.qubit_swap and povmtools.permute_matrix

Matrices whose dimension varies through the computation (the tensor-network
bookkeeping of povmtools.py / join_povms) are embedded as total functions
`RawMat`, supported on the square block of the ambient dimension `D`.
-/

/-- A numpy complex 2-d array of unspecified size: a total function, supported
on the block of the ambient dimension. -/
def RawMat := ℕ → ℕ → ℂ

/-- The all-zero matrix (np.zeros). -/
def zeroR : RawMat := fun _ _ => 0

/-- Embedding of np.eye(D). -/
def eyeR (D : ℕ) : RawMat := fun a b => if a = b ∧ a < D then 1 else 0

/-- Matrix product of D-dimensional raw matrices (numpy @). -/
noncomputable def matmulR (D : ℕ) (A B : RawMat) : RawMat :=
  fun i j => ∑ k ∈ Finset.range D, A i k * B k j

/-- Embedding of np.kron A B where B is a q x q block. -/
def kronR (A B : RawMat) (q : ℕ) : RawMat :=
  fun i j => A (i / q) (j / q) * B (i % q) (j % q)

/-- The list of the n binary digits of x, most significant first:
`bin(x)[2:].zfill(n)` for x < 2 ^ n (povmtools.py line 373). -/
def natToBits (n x : ℕ) : List ℕ :=
  (List.range n).map (fun p => x / 2 ^ (n - 1 - p) % 2)

/-- Reading a most-significant-bit-first digit list back as a number:
`int(s, 2)` (povmtools.py line 386). -/
def bitsToNat (l : List ℕ) : ℕ := l.foldl (fun acc b => 2 * acc + b) 0

/-- Python's simultaneous swap `string[i], string[j] = string[j], string[i]`
(povmtools.py line 380): both values are read from the original list before
either position is written. -/
def swapChars (l : List ℕ) (i j : ℕ) : List ℕ :=
  (l.set i (l.getD j 0)).set j (l.getD i 0)

/-- The classical-register relabelling `x -> int(new_names[x], 2)` computed by
qubit_swap: swap the 0-based bit positions i and j of the n-bit binary label
of x (this is exactly the `names` / `new_names` construction of povmtools.py
lines 373-381 evaluated at index x). -/
def swapName (n i j x : ℕ) : ℕ := bitsToNat (swapChars (natToBits n x) i j)

/-- Point update of a raw matrix: `T[x, y] = v`. -/
def updR (T : RawMat) (x y : ℕ) (v : ℂ) : RawMat :=
  fun a b => if a = x ∧ b = y then v else T a b

/-- Embedding of qubit_swap (povmtools.py lines 365-395): starting from the
identity, for every register index x whose bit-swapped label `bit` differs
from x, clear the diagonal entries (x,x) and (bit,bit) and set the
off-diagonal entries (bit,x) and (x,bit) to 1, exactly in the order the
Python loop performs the four assignments. -/
def qubit_swap (n : ℕ) (transposition : ℕ × ℕ) : RawMat :=
  let D := 2 ^ n
  let i := transposition.1 - 1
  let j := transposition.2 - 1
  (List.range D).foldl
    (fun T x =>
      let bit := swapName n i j x
      if bit ≠ x then updR (updR (updR (updR T x x 0) bit bit 0) bit x 1) x bit 1
      else T)
    (eyeR D)

/-- Embedding of permute_matrix (povmtools.py lines 355-362):
`swap @ matrix @ swap` in the 2 ^ n-dimensional space. -/
noncomputable def permute_matrix (M : RawMat) (n : ℕ) (transposition : ℕ × ℕ) : RawMat :=
  let swap := qubit_swap n transposition
  matmulR (2 ^ n) (matmulR (2 ^ n) swap M) swap

theorem natToBits_length (n x : ℕ) : (natToBits n x).length = n := by
  simp [natToBits]

theorem natToBits_lt_two (n x : ℕ) : ∀ b ∈ natToBits n x, b < 2 := by
  intro b hb
  obtain ⟨p, _, rfl⟩ := List.mem_map.mp hb
  exact Nat.mod_lt _ (by norm_num)

theorem natToBits_succ (n x : ℕ) :
    natToBits (n + 1) x = (x / 2 ^ n % 2) :: natToBits n x := by
  unfold natToBits
  rw [List.range_succ_eq_map, List.map_cons, List.map_map]
  refine congrArg₂ List.cons ?_ ?_
  · norm_num
  · apply List.map_congr_left
    intro p _
    show x / 2 ^ (n + 1 - 1 - Nat.succ p) % 2 = x / 2 ^ (n - 1 - p) % 2
    have h1 : n + 1 - 1 - Nat.succ p = n - 1 - p := by omega
    rw [h1]

theorem bitsToNat_shift (l : List ℕ) (a : ℕ) :
    l.foldl (fun acc b => 2 * acc + b) a = a * 2 ^ l.length + bitsToNat l := by
  induction l generalizing a with
  | nil => simp [bitsToNat]
  | cons b t ih =>
    simp only [List.foldl_cons, List.length_cons, bitsToNat] at *
    rw [ih (2 * a + b), ih (2 * 0 + b)]
    ring

theorem bitsToNat_cons (b : ℕ) (l : List ℕ) :
    bitsToNat (b :: l) = b * 2 ^ l.length + bitsToNat l := by
  have := bitsToNat_shift l b
  simpa [bitsToNat] using this

theorem bitsToNat_lt (l : List ℕ) (h : ∀ b ∈ l, b < 2) :
    bitsToNat l < 2 ^ l.length := by
  induction l with
  | nil => simp [bitsToNat]
  | cons b t ih =>
    rw [bitsToNat_cons]
    have hb : b < 2 := h b (List.mem_cons_self _ _)
    have ht := ih (fun c hc => h c (List.mem_cons_of_mem _ hc))
    have hb1 : b ≤ 1 := by omega
    calc b * 2 ^ t.length + bitsToNat t
        ≤ 1 * 2 ^ t.length + bitsToNat t := by
          exact Nat.add_le_add_right (Nat.mul_le_mul_right _ hb1) _
      _ < 2 ^ t.length + 2 ^ t.length := by omega
      _ = 2 ^ (b :: t).length := by
          rw [List.length_cons, pow_succ]
          ring

theorem digit_mod_pow (n k x : ℕ) (hk : k < n) :
    x % 2 ^ n / 2 ^ k % 2 = x / 2 ^ k % 2 := by
  obtain ⟨q, r, hr, rfl⟩ : ∃ q r, r < 2 ^ n ∧ x = 2 ^ n * q + r :=
    ⟨x / 2 ^ n, x % 2 ^ n, Nat.mod_lt _ (by positivity),
      by rw [Nat.div_add_mod]⟩
  rw [Nat.mul_add_mod, Nat.mod_eq_of_lt hr]
  have hpow : (2 : ℕ) ^ n * q = 2 ^ k * (2 * (2 ^ (n - k - 1) * q)) := by
    rw [← mul_assoc, ← mul_assoc, ← pow_succ, ← pow_add]
    congr 2
    omega
  rw [hpow, Nat.mul_add_div (by positivity), Nat.mul_add_mod]

theorem natToBits_mod (n x : ℕ) : natToBits n (x % 2 ^ n) = natToBits n x := by
  unfold natToBits
  apply List.map_congr_left
  intro p hp
  have hlt : n - 1 - p < n := by
    have := List.mem_range.mp hp
    omega
  exact digit_mod_pow n (n - 1 - p) x hlt

theorem bitsToNat_natToBits (n x : ℕ) (h : x < 2 ^ n) :
    bitsToNat (natToBits n x) = x := by
  induction n generalizing x with
  | zero =>
    interval_cases x
    simp [natToBits, bitsToNat]
  | succ n ih =>
    rw [natToBits_succ, bitsToNat_cons, natToBits_length,
      ← natToBits_mod, ih _ (Nat.mod_lt _ (Nat.two_pow_pos _))]
    have hdiv : x / 2 ^ n < 2 := by
      apply Nat.div_lt_of_lt_mul
      calc x < 2 ^ (n + 1) := h
        _ = 2 ^ n * 2 := by ring
    rw [Nat.mod_eq_of_lt hdiv]
    conv_rhs => rw [← Nat.div_add_mod x (2 ^ n)]
    ring

theorem natToBits_bitsToNat (l : List ℕ) (h : ∀ b ∈ l, b < 2) :
    natToBits l.length (bitsToNat l) = l := by
  induction l with
  | nil => simp [natToBits, bitsToNat]
  | cons b t ih =>
    have hb : b < 2 := h b (List.mem_cons_self _ _)
    have ht : ∀ c ∈ t, c < 2 := fun c hc => h c (List.mem_cons_of_mem _ hc)
    have htlt := bitsToNat_lt t ht
    rw [List.length_cons, natToBits_succ, bitsToNat_cons]
    refine congrArg₂ List.cons ?_ ?_
    · rw [Nat.mul_comm b, Nat.mul_add_div (Nat.two_pow_pos _),
        Nat.div_eq_of_lt htlt, Nat.add_zero, Nat.mod_eq_of_lt hb]
    · rw [← natToBits_mod, Nat.mul_comm b, Nat.mul_add_mod, Nat.mod_eq_of_lt htlt,
        ih ht]

theorem swapChars_length (l : List ℕ) (i j : ℕ) :
    (swapChars l i j).length = l.length := by
  simp [swapChars]

theorem getD_set (l : List ℕ) (i p v : ℕ) :
    (l.set i v).getD p 0 = if i = p ∧ i < l.length then v else l.getD p 0 := by
  rw [List.getD_eq_getElem?_getD, List.getD_eq_getElem?_getD, List.getElem?_set]
  by_cases h1 : i = p
  · subst h1
    by_cases h2 : i < l.length
    · simp [h2]
    · simp [h2, List.getElem?_eq_none (le_of_not_lt h2)]
  · simp [h1]

theorem swapChars_getD (l : List ℕ) (i j p : ℕ) :
    (swapChars l i j).getD p 0 =
      if j = p ∧ j < l.length then l.getD i 0
      else if i = p ∧ i < l.length then l.getD j 0
      else l.getD p 0 := by
  unfold swapChars
  rw [getD_set, getD_set, List.length_set]

theorem mem_of_mem_set {α : Type*} {l : List α} {k : ℕ} {v b : α}
    (hb : b ∈ l.set k v) : b ∈ l ∨ b = v := by
  induction l generalizing k with
  | nil => simp [List.set] at hb
  | cons a t ih =>
    cases k with
    | zero =>
      simp only [List.set] at hb
      rcases List.mem_cons.mp hb with h | h
      · right; exact h
      · left; exact List.mem_cons_of_mem _ h
    | succ k =>
      simp only [List.set] at hb
      rcases List.mem_cons.mp hb with h | h
      · left; simp [h]
      · rcases ih h with h' | h'
        · left; exact List.mem_cons_of_mem _ h'
        · right; exact h'

theorem getD_lt_two (l : List ℕ) (k : ℕ) (h : ∀ b ∈ l, b < 2) :
    l.getD k 0 < 2 := by
  by_cases hk : k < l.length
  · rw [List.getD_eq_getElem _ _ hk]
    exact h _ (List.getElem_mem hk)
  · rw [List.getD_eq_default _ _ (by omega)]
    norm_num

theorem swapChars_lt_two (l : List ℕ) (i j : ℕ) (h : ∀ b ∈ l, b < 2) :
    ∀ b ∈ swapChars l i j, b < 2 := by
  intro b hb
  rcases mem_of_mem_set hb with hb' | hb'
  · rcases mem_of_mem_set hb' with hb'' | hb''
    · exact h b hb''
    · rw [hb'']; exact getD_lt_two l j h
  · rw [hb']; exact getD_lt_two l i h

theorem getD_ext (l₁ l₂ : List ℕ) (hlen : l₁.length = l₂.length)
    (h : ∀ p, l₁.getD p 0 = l₂.getD p 0) : l₁ = l₂ := by
  apply List.ext_getElem hlen
  intro p h1 h2
  rw [← List.getD_eq_getElem l₁ 0 h1, ← List.getD_eq_getElem l₂ 0 h2]
  exact h p

theorem swapChars_swapChars (l : List ℕ) (i j : ℕ)
    (hi : i < l.length) (hj : j < l.length) :
    swapChars (swapChars l i j) i j = l := by
  apply getD_ext _ _ (by simp [swapChars_length])
  intro p
  rw [swapChars_getD, swapChars_getD, swapChars_length]
  rw [swapChars_getD, swapChars_getD]
  split_ifs <;> simp_all

theorem set_getD_self (l : List ℕ) (i : ℕ) : l.set i (l.getD i 0) = l := by
  induction l generalizing i with
  | nil => simp
  | cons a t ih =>
    cases i with
    | zero => simp [List.set]
    | succ i =>
      simp only [List.set, List.getD_cons_succ]
      rw [ih]

theorem swapChars_self (l : List ℕ) (i : ℕ) : swapChars l i i = l := by
  unfold swapChars
  rw [set_getD_self, set_getD_self]

theorem swapName_lt (n i j x : ℕ) : swapName n i j x < 2 ^ n := by
  have h2 := swapChars_lt_two (natToBits n x) i j (natToBits_lt_two n x)
  have hlt := bitsToNat_lt _ h2
  rwa [swapChars_length, natToBits_length] at hlt

theorem swapName_involutive (n i j x : ℕ) (hi : i < n) (hj : j < n)
    (hx : x < 2 ^ n) : swapName n i j (swapName n i j x) = x := by
  unfold swapName
  have hb : ∀ b ∈ swapChars (natToBits n x) i j, b < 2 :=
    swapChars_lt_two _ _ _ (natToBits_lt_two n x)
  have hlen : (swapChars (natToBits n x) i j).length = n := by
    rw [swapChars_length, natToBits_length]
  have hnb := natToBits_bitsToNat _ hb
  rw [hlen] at hnb
  rw [hnb, swapChars_swapChars _ _ _ (by rw [natToBits_length]; exact hi)
    (by rw [natToBits_length]; exact hj)]
  exact bitsToNat_natToBits n x hx

theorem swapName_self (n i x : ℕ) (hx : x < 2 ^ n) : swapName n i i x = x := by
  unfold swapName
  rw [swapChars_self]
  exact bitsToNat_natToBits n x hx

open scoped Classical in
theorem foldl_swap_char (σ : ℕ → ℕ) (l : List ℕ) (hσ : ∀ x ∈ l, σ (σ x) = x)
    (T : RawMat) (a b : ℕ) :
    (l.foldl
      (fun T x =>
        if σ x ≠ x then
          updR (updR (updR (updR T x x 0) (σ x) (σ x) 0) (σ x) x 1) x (σ x) 1
        else T) T) a b =
    if ∃ x ∈ l, σ x ≠ x ∧ (a = x ∨ a = σ x) ∧ (b = x ∨ b = σ x)
    then (if b = σ a then 1 else 0) else T a b := by
  induction l generalizing T with
  | nil => simp
  | cons x l ih =>
    rw [List.foldl_cons, ih (fun y hy => hσ y (List.mem_cons_of_mem _ hy))]
    by_cases hl : ∃ y ∈ l, σ y ≠ y ∧ (a = y ∨ a = σ y) ∧ (b = y ∨ b = σ y)
    · have hcons : ∃ y ∈ x :: l, σ y ≠ y ∧ (a = y ∨ a = σ y) ∧ (b = y ∨ b = σ y) := by
        obtain ⟨y, hy, hP⟩ := hl
        exact ⟨y, List.mem_cons_of_mem _ hy, hP⟩
      rw [if_pos hl, if_pos hcons]
    · rw [if_neg hl]
      have hx2 : σ (σ x) = x := hσ x (List.mem_cons_self _ _)
      by_cases hxx : σ x = x
      · rw [if_neg (by simpa using hxx)]
        rw [if_neg]
        rintro ⟨y, hy, h1, h23⟩
        rcases List.mem_cons.mp hy with rfl | hy'
        · exact h1 hxx
        · exact hl ⟨y, hy', h1, h23⟩
      · rw [if_pos (by simpa using hxx)]
        have hxx' : x ≠ σ x := fun h => hxx h.symm
        by_cases htouch : (a = x ∨ a = σ x) ∧ (b = x ∨ b = σ x)
        · rw [if_pos ⟨x, List.mem_cons_self _ _, hxx, htouch⟩]
          obtain ⟨ha, hb⟩ := htouch
          rcases ha with rfl | rfl <;> rcases hb with rfl | rfl <;>
            simp [updR, hxx, hxx', hx2]
        · rw [if_neg]
          · have hc1 : ¬(a = x ∧ b = σ x) := fun ⟨u, v⟩ => htouch ⟨Or.inl u, Or.inr v⟩
            have hc2 : ¬(a = σ x ∧ b = x) := fun ⟨u, v⟩ => htouch ⟨Or.inr u, Or.inl v⟩
            have hc3 : ¬(a = σ x ∧ b = σ x) := fun ⟨u, v⟩ => htouch ⟨Or.inr u, Or.inr v⟩
            have hc4 : ¬(a = x ∧ b = x) := fun ⟨u, v⟩ => htouch ⟨Or.inl u, Or.inl v⟩
            simp [updR, hc1, hc2, hc3, hc4]
          · rintro ⟨y, hy, h1, h23⟩
            rcases List.mem_cons.mp hy with rfl | hy'
            · exact htouch h23
            · exact hl ⟨y, hy', h1, h23⟩

theorem qubit_swap_apply (n : ℕ) (t : ℕ × ℕ) (h1 : 1 ≤ t.1) (h2 : t.1 ≤ n)
    (h3 : 1 ≤ t.2) (h4 : t.2 ≤ n) (a b : ℕ) :
    qubit_swap n t a b =
      if a < 2 ^ n ∧ b < 2 ^ n then
        (if b = swapName n (t.1 - 1) (t.2 - 1) a then 1 else 0)
      else 0 := by
  set D := 2 ^ n with hD
  set σ := swapName n (t.1 - 1) (t.2 - 1) with hσdef
  have hi : t.1 - 1 < n := by omega
  have hj : t.2 - 1 < n := by omega
  have hσinv : ∀ x ∈ List.range D, σ (σ x) = x := fun x hx =>
    swapName_involutive _ _ _ _ hi hj (List.mem_range.mp hx)
  have hσlt : ∀ x, σ x < D := fun x => swapName_lt _ _ _ _
  show (List.range D).foldl _ (eyeR D) a b = _
  rw [foldl_swap_char σ _ hσinv]
  by_cases hab : a < D ∧ b < D
  · obtain ⟨ha, hb⟩ := hab
    have hainv : σ (σ a) = a := hσinv a (List.mem_range.mpr ha)
    by_cases hsa : σ a = a
    · rw [if_neg, if_pos (show a < D ∧ b < D from ⟨ha, hb⟩), hsa]
      · show (if a = b ∧ a < D then (1 : ℂ) else 0) = if b = a then 1 else 0
        by_cases heq : a = b
        · subst heq; simp [ha]
        · have hba : ¬ b = a := fun h => heq h.symm
          simp [heq, hba]
      · rintro ⟨x, hx, hne, hA, hB⟩
        rcases hA with rfl | rfl
        · exact hne hsa
        · have h5 := hσinv x hx
          exact hne ((h5.symm.trans hsa).symm)
    · by_cases hba : b = a ∨ b = σ a
      · have hex : ∃ x ∈ List.range D,
            σ x ≠ x ∧ (a = x ∨ a = σ x) ∧ (b = x ∨ b = σ x) :=
          ⟨a, List.mem_range.mpr ha, hsa, Or.inl rfl, hba⟩
        rw [if_pos hex, if_pos (show a < D ∧ b < D from ⟨ha, hb⟩)]
      · rw [if_neg, if_pos (show a < D ∧ b < D from ⟨ha, hb⟩)]
        · have hbsa : ¬ b = σ a := fun h => hba (Or.inr h)
          have hbne : ¬ a = b := fun h => hba (Or.inl h.symm)
          show (if a = b ∧ a < D then (1 : ℂ) else 0) = if b = σ a then 1 else 0
          simp [hbsa, hbne]
        · rintro ⟨x, hx, hne, hA, hB⟩
          have hxinv : σ (σ x) = x := hσinv x hx
          rcases hA with rfl | rfl
          · exact hba hB
          · rcases hB with rfl | rfl
            · exact hba (Or.inr hxinv.symm)
            · exact hba (Or.inl rfl)
  · rw [if_neg, if_neg hab]
    · have hC : ¬ (a = b ∧ a < D) := by
        rintro ⟨rfl, hA⟩
        exact hab ⟨hA, hA⟩
      show (if a = b ∧ a < D then (1 : ℂ) else 0) = 0
      simp [hC]
    · rintro ⟨x, hx, hne, hA, hB⟩
      have hxD : x < D := List.mem_range.mp hx
      have haD : a < D := by rcases hA with rfl | rfl; exacts [hxD, hσlt x]
      have hbD : b < D := by rcases hB with rfl | rfl; exacts [hxD, hσlt x]
      exact hab ⟨haD, hbD⟩

theorem qubit_swap_mul_self (n : ℕ) (t : ℕ × ℕ) (h1 : 1 ≤ t.1) (h2 : t.1 ≤ n)
    (h3 : 1 ≤ t.2) (h4 : t.2 ≤ n) :
    matmulR (2 ^ n) (qubit_swap n t) (qubit_swap n t) = eyeR (2 ^ n) := by
  funext a b
  set D := 2 ^ n with hD
  set σ := swapName n (t.1 - 1) (t.2 - 1) with hσdef
  have hP : ∀ x y, qubit_swap n t x y =
      if x < D ∧ y < D then (if y = σ x then 1 else 0) else 0 := fun x y =>
    qubit_swap_apply n t h1 h2 h3 h4 x y
  show (∑ k ∈ Finset.range D, qubit_swap n t a k * qubit_swap n t k b) = eyeR D a b
  by_cases ha : a < D
  · have hsaD : σ a < D := swapName_lt _ _ _ _
    have hsum : ∀ k ∈ Finset.range D, qubit_swap n t a k * qubit_swap n t k b
        = if k = σ a then qubit_swap n t k b else 0 := by
      intro k hk
      rw [hP a k, if_pos (show a < D ∧ k < D from ⟨ha, List.mem_range.mp hk⟩)]
      by_cases hks : k = σ a
      · rw [if_pos hks, if_pos hks, one_mul]
      · rw [if_neg hks, if_neg hks, zero_mul]
    rw [Finset.sum_congr rfl hsum, Finset.sum_ite_eq' (Finset.range D) (σ a),
      if_pos (Finset.mem_range.mpr hsaD), hP]
    have hinv : σ (σ a) = a :=
      swapName_involutive _ _ _ _ (by omega) (by omega) ha
    by_cases hb : b < D
    · rw [if_pos (show σ a < D ∧ b < D from ⟨hsaD, hb⟩), hinv]
      show (if b = a then (1 : ℂ) else 0) = if a = b ∧ a < D then 1 else 0
      by_cases heq : a = b
      · simp [heq, ha, hb]
      · have hba : ¬ b = a := fun h => heq h.symm
        simp [heq, hba]
    · rw [if_neg (fun h : σ a < D ∧ b < D => hb h.2)]
      show (0 : ℂ) = if a = b ∧ a < D then 1 else 0
      have hC : ¬ (a = b ∧ a < D) := fun h => hb (h.1 ▸ ha)
      simp [hC]
  · have hz : ∀ k ∈ Finset.range D, qubit_swap n t a k * qubit_swap n t k b = 0 := by
      intro k _
      rw [hP a k, if_neg (fun h : a < D ∧ k < D => ha h.1), zero_mul]
    rw [Finset.sum_congr rfl hz, Finset.sum_const_zero]
    show (0 : ℂ) = if a = b ∧ a < D then 1 else 0
    have hC : ¬ (a = b ∧ a < D) := fun h => ha h.2
    simp [hC]

theorem matmulR_pick_left (D : ℕ) (P X : RawMat) (a : ℕ) (c : ℕ) (hc : c < D)
    (hP : ∀ k, k < D → P a k = if k = c then 1 else 0) (b : ℕ) :
    matmulR D P X a b = X c b := by
  show (∑ k ∈ Finset.range D, P a k * X k b) = X c b
  have hsum : ∀ k ∈ Finset.range D, P a k * X k b
      = if k = c then X k b else 0 := by
    intro k hk
    rw [hP k (List.mem_range.mp hk)]
    by_cases hks : k = c
    · rw [if_pos hks, if_pos hks, one_mul]
    · rw [if_neg hks, if_neg hks, zero_mul]
  rw [Finset.sum_congr rfl hsum, Finset.sum_ite_eq' (Finset.range D) c,
    if_pos (Finset.mem_range.mpr hc)]

theorem matmulR_pick_right (D : ℕ) (X P : RawMat) (b : ℕ) (c : ℕ) (hc : c < D)
    (hP : ∀ k, k < D → P k b = if k = c then 1 else 0) (a : ℕ) :
    matmulR D X P a b = X a c := by
  show (∑ k ∈ Finset.range D, X a k * P k b) = X a c
  have hsum : ∀ k ∈ Finset.range D, X a k * P k b
      = if k = c then X a k else 0 := by
    intro k hk
    rw [hP k (List.mem_range.mp hk)]
    by_cases hks : k = c
    · rw [if_pos hks, if_pos hks, mul_one]
    · rw [if_neg hks, if_neg hks, mul_zero]
  rw [Finset.sum_congr rfl hsum, Finset.sum_ite_eq' (Finset.range D) c,
    if_pos (Finset.mem_range.mpr hc)]

theorem permute_matrix_apply (n : ℕ) (t : ℕ × ℕ) (h1 : 1 ≤ t.1) (h2 : t.1 ≤ n)
    (h3 : 1 ≤ t.2) (h4 : t.2 ≤ n) (X : RawMat) (a b : ℕ)
    (ha : a < 2 ^ n) (hb : b < 2 ^ n) :
    permute_matrix X n t a b =
      X (swapName n (t.1 - 1) (t.2 - 1) a) (swapName n (t.1 - 1) (t.2 - 1) b) := by
  set D := 2 ^ n with hD
  set σ := swapName n (t.1 - 1) (t.2 - 1) with hσdef
  have hP : ∀ x y, qubit_swap n t x y =
      if x < D ∧ y < D then (if y = σ x then 1 else 0) else 0 := fun x y =>
    qubit_swap_apply n t h1 h2 h3 h4 x y
  have hσlt : ∀ x, σ x < D := fun x => swapName_lt _ _ _ _
  show matmulR D (matmulR D (qubit_swap n t) X) (qubit_swap n t) a b = X (σ a) (σ b)
  have hrow : ∀ l, matmulR D (qubit_swap n t) X a l = X (σ a) l := by
    intro l
    apply matmulR_pick_left D _ X a (σ a) (hσlt a)
    intro k hk
    rw [hP a k, if_pos (show a < D ∧ k < D from ⟨ha, hk⟩)]
  have hcol : ∀ k, k < D → qubit_swap n t k b = if k = σ b then 1 else 0 := by
    intro k hk
    rw [hP k b, if_pos (show k < D ∧ b < D from ⟨hk, hb⟩)]
    have hkinv : σ (σ k) = k := swapName_involutive _ _ _ _ (by omega) (by omega) hk
    have hbinv : σ (σ b) = b := swapName_involutive _ _ _ _ (by omega) (by omega) hb
    by_cases hbs : b = σ k
    · rw [if_pos hbs, if_pos (by rw [hbs, hkinv])]
    · rw [if_neg hbs, if_neg (fun h : k = σ b => hbs (by rw [h, hbinv]))]
  rw [matmulR_pick_right D _ _ b (σ b) (hσlt b) hcol a, hrow]

theorem matmulR_row_zero (D : ℕ) (A B : RawMat) (a b : ℕ)
    (h : ∀ k, A a k = 0) : matmulR D A B a b = 0 := by
  show (∑ k ∈ Finset.range D, A a k * B k b) = 0
  apply Finset.sum_eq_zero
  intro k _
  rw [h k, zero_mul]

theorem matmulR_col_zero (D : ℕ) (A B : RawMat) (a b : ℕ)
    (h : ∀ k, B k b = 0) : matmulR D A B a b = 0 := by
  show (∑ k ∈ Finset.range D, A a k * B k b) = 0
  apply Finset.sum_eq_zero
  intro k _
  rw [h k, mul_zero]

theorem permute_matrix_outside (n : ℕ) (t : ℕ × ℕ) (h1 : 1 ≤ t.1) (h2 : t.1 ≤ n)
    (h3 : 1 ≤ t.2) (h4 : t.2 ≤ n) (X : RawMat) (a b : ℕ)
    (hab : ¬ (a < 2 ^ n ∧ b < 2 ^ n)) : permute_matrix X n t a b = 0 := by
  set D := 2 ^ n with hD
  show matmulR D (matmulR D (qubit_swap n t) X) (qubit_swap n t) a b = 0
  by_cases hb : b < D
  · have ha : ¬ a < D := fun h => hab ⟨h, hb⟩
    apply matmulR_row_zero
    intro l
    apply matmulR_row_zero
    intro k
    rw [qubit_swap_apply n t h1 h2 h3 h4, if_neg (fun h : a < D ∧ k < D => ha h.1)]
  · apply matmulR_col_zero
    intro k
    rw [qubit_swap_apply n t h1 h2 h3 h4, if_neg (fun h : k < D ∧ b < D => hb h.2)]

/-- C7: for every n ≥ 1, 1-based positions i, j ≤ n, and 2^n-dimensional
matrix M, the swap matrix built by qubit_swap is involutive (P @ P equals the
identity) and permuting M twice with the same transposition returns M
exactly. -/
theorem permute_matrix_twice (n i j : ℕ) (M : RawMat)
    (_hn : 1 ≤ n) (hi1 : 1 ≤ i) (hin : i ≤ n) (hj1 : 1 ≤ j) (hjn : j ≤ n)
    (hsupp : ∀ a b, 2 ^ n ≤ a ∨ 2 ^ n ≤ b → M a b = 0) :
    matmulR (2 ^ n) (qubit_swap n (i, j)) (qubit_swap n (i, j)) = eyeR (2 ^ n) ∧
      permute_matrix (permute_matrix M n (i, j)) n (i, j) = M := by
  refine ⟨qubit_swap_mul_self n (i, j) hi1 hin hj1 hjn, ?_⟩
  funext a b
  by_cases hab : a < 2 ^ n ∧ b < 2 ^ n
  · obtain ⟨ha, hb⟩ := hab
    have hσlt : ∀ x, swapName n (i - 1) (j - 1) x < 2 ^ n := fun x =>
      swapName_lt _ _ _ _
    rw [permute_matrix_apply n (i, j) hi1 hin hj1 hjn _ a b ha hb,
      permute_matrix_apply n (i, j) hi1 hin hj1 hjn M _ _ (hσlt a) (hσlt b)]
    rw [swapName_involutive _ _ _ _ (by omega) (by omega) ha,
      swapName_involutive _ _ _ _ (by omega) (by omega) hb]
  · rw [permute_matrix_outside n (i, j) hi1 hin hj1 hjn _ a b hab]
    rcases not_and_or.mp hab with h | h
    · exact (hsupp a b (Or.inl (le_of_not_lt h))).symm
    · exact (hsupp a b (Or.inr (le_of_not_lt h))).symm

/-- Witness for C7 at n = 1, (i, j) = (1, 1) and the zero matrix. -/
theorem permute_matrix_twice_witness :
    matmulR (2 ^ 1) (qubit_swap 1 (1, 1)) (qubit_swap 1 (1, 1)) = eyeR (2 ^ 1) ∧
      permute_matrix (permute_matrix zeroR 1 (1, 1)) 1 (1, 1) = zeroR :=
  permute_matrix_twice 1 1 1 zeroR (by norm_num) (by norm_num) (by norm_num)
    (by norm_num) (by norm_num) (fun a b _ => rfl)

theorem matmulR_eyeR_left (D : ℕ) (M : RawMat)
    (hrow : ∀ a b, D ≤ a → M a b = 0) : matmulR D (eyeR D) M = M := by
  funext a b
  by_cases ha : a < D
  · apply matmulR_pick_left D _ M a a ha _ b
    intro k hk
    show (if a = k ∧ a < D then (1 : ℂ) else 0) = if k = a then 1 else 0
    by_cases hks : k = a
    · rw [if_pos (show a = k ∧ a < D from ⟨hks.symm, ha⟩), if_pos hks]
    · rw [if_neg (fun h : a = k ∧ a < D => hks h.1.symm), if_neg hks]
  · have hz : ∀ k, eyeR D a k = 0 := by
      intro k
      show (if a = k ∧ a < D then (1 : ℂ) else 0) = 0
      rw [if_neg (fun h : a = k ∧ a < D => ha h.2)]
    rw [matmulR_row_zero D _ M a b hz, hrow a b (le_of_not_lt ha)]

theorem matmulR_eyeR_right (D : ℕ) (M : RawMat)
    (hcol : ∀ a b, D ≤ b → M a b = 0) : matmulR D M (eyeR D) = M := by
  funext a b
  by_cases hb : b < D
  · apply matmulR_pick_right D M _ b b hb _ a
    intro k hk
    show (if k = b ∧ k < D then (1 : ℂ) else 0) = if k = b then 1 else 0
    by_cases hks : k = b
    · simp [hks, hks ▸ hk]
    · simp [hks]
  · have hz : ∀ k, eyeR D k b = 0 := by
      intro k
      show (if k = b ∧ k < D then (1 : ℂ) else 0) = 0
      rw [if_neg (fun h : k = b ∧ k < D => hb (h.1 ▸ h.2))]
    rw [matmulR_col_zero D M _ a b hz, hcol a b (le_of_not_lt hb)]

/-- C10: for n ≥ 1 and a 1-based position i ≤ n, qubit_swap with the
transposition (i, i) (a position swapped with itself, which includes the
Python default argument (1, 1)) is the 2^n-dimensional identity matrix, and
permute_matrix with such a transposition returns its input unchanged. -/
theorem qubit_swap_self_transposition (n i : ℕ) (M : RawMat)
    (_hn : 1 ≤ n) (hi1 : 1 ≤ i) (hin : i ≤ n)
    (hsupp : ∀ a b, 2 ^ n ≤ a ∨ 2 ^ n ≤ b → M a b = 0) :
    qubit_swap n (i, i) = eyeR (2 ^ n) ∧ permute_matrix M n (i, i) = M := by
  have heq : qubit_swap n (i, i) = eyeR (2 ^ n) := by
    funext a b
    rw [qubit_swap_apply n (i, i) hi1 hin hi1 hin]
    by_cases hab : a < 2 ^ n ∧ b < 2 ^ n
    · rw [if_pos hab, swapName_self n (i - 1) a hab.1]
      show (if b = a then (1 : ℂ) else 0) = if a = b ∧ a < 2 ^ n then 1 else 0
      by_cases heq2 : a = b
      · simp [heq2, hab.2, heq2 ▸ hab.1]
      · have hba : ¬ b = a := fun h => heq2 h.symm
        simp [heq2, hba]
    · rw [if_neg hab]
      show (0 : ℂ) = if a = b ∧ a < 2 ^ n then 1 else 0
      have hC : ¬ (a = b ∧ a < 2 ^ n) := fun h => hab ⟨h.2, h.1 ▸ h.2⟩
      simp [hC]
  refine ⟨heq, ?_⟩
  show matmulR _ (matmulR _ (qubit_swap n (i, i)) M) (qubit_swap n (i, i)) = M
  rw [heq, matmulR_eyeR_left _ _ (fun a b h => hsupp a b (Or.inl h)),
    matmulR_eyeR_right _ _ (fun a b h => hsupp a b (Or.inr h))]

/-- Witness for C10 at n = 1, i = 1 and the zero matrix. -/
theorem qubit_swap_self_transposition_witness :
    qubit_swap 1 (1, 1) = eyeR (2 ^ 1) ∧ permute_matrix zeroR 1 (1, 1) = zeroR :=
  qubit_swap_self_transposition 1 1 zeroR (by norm_num) (by norm_num)
    (by norm_num) (fun a b _ => rfl)

/-! ## DetectorTomography.join_povms -/

/-- Embedding of sort_things (povmtools.py lines 408-413):
`sorted(zip(X, Y), key=lambda pair: pair[0])`.  Python's `sorted` and
`List.mergeSort` are both stable, and `zip` truncates to the shorter list. -/
def sort_things {α β : Type*} [LinearOrder β] (stuff_to_sort : List α)
    (according_to_what : List β) : List α :=
  ((according_to_what.zip stuff_to_sort).mergeSort
    (fun p q => decide (p.1 ≤ q.1))).map Prod.snd

/-- Embedding of sort_bitstring (povmtools.py lines 416-420); a bit string is
represented by its digit list, and Python's lexicographic comparison of
equal-length digit strings is the lexicographic order on the digit lists. -/
def sort_bitstring (string : List ℕ) (new_order : List ℕ) : List ℕ :=
  sort_things string new_order

/-- Embedding of reorder_classical_register (povmtools.py lines 398-405). -/
def reorder_classical_register (new_order : List ℕ) : List (List ℕ) :=
  let n := new_order.length
  ((List.range (2 ^ n)).map (natToBits n)).map (fun s => sort_bitstring s new_order)

/-- Modelled from the spec: the repository calls the external combinator
`GeneralTensorCalculator.calculate_tensor_to_increasing_list` (PyMaLi
package, not part of this repository); spec section 4.2 specifies that it
enumerates the Cartesian product of the operand lists with the last factor's
index varying fastest.  `cartesianTuples` produces the operand tuples in
exactly that order. -/
def cartesianTuples {α : Type*} : List (List α) → List (List α)
  | [] => [[]]
  | l :: rest => l.flatMap (fun x => (cartesianTuples rest).map (x :: ·))

/-- Embedding of gtc_matrix_product_counting_function (DetectorTomography.py
lines 35-44): combine an argument tuple by the matrix product, left to right;
D is the ambient dimension of the matrices. -/
noncomputable def gtc_matrix_product_counting_function (D : ℕ) :
    List RawMat → RawMat
  | [] => zeroR
  | a :: rest => rest.foldl (matmulR D) a

/-- Modelled from the spec (section 4.2): the tensor-composition utility as
used by join_povms with the matrix-product combination rule — enumerate the
operand tuples in increasing-list order and combine each tuple with
gtc_matrix_product_counting_function. -/
noncomputable def calculate_tensor_to_increasing_list (D : ℕ)
    (lists : List (List RawMat)) : List RawMat :=
  (cartesianTuples lists).map (gtc_matrix_product_counting_function D)

/-- Embedding of join_povms (DetectorTomography.py lines 251-298). -/
noncomputable def join_povms (povms : List (List RawMat))
    (qubit_indices_lists : List (List ℕ)) : List RawMat :=
  let qubits_num := (qubit_indices_lists.map List.length).sum
  let swapped_povms := (List.range qubit_indices_lists.length).map (fun i =>
    let indices_now := qubit_indices_lists.getD i []
    let povm_now := povms.getD i []
    let povm_now_extended := povm_now.map (fun Mi =>
      kronR Mi (eyeR (2 ^ (qubits_num - indices_now.length)))
        (2 ^ (qubits_num - indices_now.length)))
    (List.range indices_now.length).reverse.foldl
      (fun swapped_povm j =>
        let index_qubit_now := indices_now.getD j 0
        if index_qubit_now ≠ j then
          swapped_povm.map (fun Mj =>
            permute_matrix Mj qubits_num (j + 1, index_qubit_now + 1))
        else swapped_povm)
      povm_now_extended)
  let povm := calculate_tensor_to_increasing_list (2 ^ qubits_num) swapped_povms
  let indices_order := qubit_indices_lists.foldl (· ++ ·) []
  let new_classical_register := reorder_classical_register indices_order
  sort_things povm new_classical_register

theorem permute12_apply (X : RawMat) (a b : ℕ) (ha : a < 4) (hb : b < 4) :
    permute_matrix X 2 (1, 2) a b = X (swapName 2 0 1 a) (swapName 2 0 1 b) := by
  have h := permute_matrix_apply 2 (1, 2) (by norm_num) (by norm_num) (by norm_num)
    (by norm_num) X a b (by simpa using ha) (by simpa using hb)
  simpa using h

theorem permute12_outside (X : RawMat) (a b : ℕ) (hab : ¬ (a < 4 ∧ b < 4)) :
    permute_matrix X 2 (1, 2) a b = 0 := by
  have h := permute_matrix_outside 2 (1, 2) (by norm_num) (by norm_num) (by norm_num)
    (by norm_num) X a b (by simpa using hab)
  simpa using h

/-- Support of a raw matrix on the leading q x q block. -/
def SuppR (q : ℕ) (M : RawMat) : Prop := ∀ a b, q ≤ a ∨ q ≤ b → M a b = 0

/-- The 4 x 4 matrix Y tensor X (Y on the leading qubit), supported on the
4 x 4 block; this is the common value of the two mixed products below. -/
def kronYX (Y X : RawMat) : RawMat :=
  fun a b => if a < 4 ∧ b < 4 then Y (a / 2) (b / 2) * X (a % 2) (b % 2) else 0

theorem mul_swapped_ext (X Y : RawMat) (hY : SuppR 2 Y) :
    matmulR 4 (permute_matrix (kronR X (eyeR 2) 2) 2 (1, 2)) (kronR Y (eyeR 2) 2) =
      kronYX Y X := by
  have hσ : ∀ a, a < 4 → swapName 2 0 1 a = 2 * (a % 2) + a / 2 := by decide
  funext a b
  show (∑ k ∈ Finset.range 4,
      permute_matrix (kronR X (eyeR 2) 2) 2 (1, 2) a k * kronR Y (eyeR 2) 2 k b) =
    kronYX Y X a b
  by_cases hab : a < 4 ∧ b < 4
  · obtain ⟨ha, hb⟩ := hab
    have hperm : ∀ k ∈ Finset.range 4,
        permute_matrix (kronR X (eyeR 2) 2) 2 (1, 2) a k *
          kronR Y (eyeR 2) 2 k b =
        kronR X (eyeR 2) 2 (swapName 2 0 1 a) (swapName 2 0 1 k) *
          kronR Y (eyeR 2) 2 k b := by
      intro k hk
      rw [permute12_apply _ _ _ ha (List.mem_range.mp hk)]
    rw [Finset.sum_congr rfl hperm]
    rw [show kronYX Y X a b = Y (a / 2) (b / 2) * X (a % 2) (b % 2) from
      if_pos ⟨ha, hb⟩]
    interval_cases a <;> interval_cases b <;>
      · simp [Finset.sum_range_succ, hσ, kronR, eyeR]
        try ring
  · rw [show kronYX Y X a b = 0 from if_neg hab]
    apply Finset.sum_eq_zero
    intro k hk
    have hk4 : k < 4 := List.mem_range.mp hk
    rcases not_and_or.mp hab with h | h
    · rw [permute12_outside _ _ _ (fun hc => h hc.1), zero_mul]
    · have hb4 : 4 ≤ b := le_of_not_lt h
      have : kronR Y (eyeR 2) 2 k b = 0 := by
        show Y (k / 2) (b / 2) * eyeR 2 (k % 2) (b % 2) = 0
        rw [hY (k / 2) (b / 2) (Or.inr (by omega)), zero_mul]
      rw [this, mul_zero]

theorem mul_ext_swapped (X Y : RawMat) (hY : SuppR 2 Y) :
    matmulR 4 (kronR Y (eyeR 2) 2) (permute_matrix (kronR X (eyeR 2) 2) 2 (1, 2)) =
      kronYX Y X := by
  have hσ : ∀ a, a < 4 → swapName 2 0 1 a = 2 * (a % 2) + a / 2 := by decide
  funext a b
  show (∑ k ∈ Finset.range 4,
      kronR Y (eyeR 2) 2 a k *
        permute_matrix (kronR X (eyeR 2) 2) 2 (1, 2) k b) = kronYX Y X a b
  by_cases hab : a < 4 ∧ b < 4
  · obtain ⟨ha, hb⟩ := hab
    have hperm : ∀ k ∈ Finset.range 4,
        kronR Y (eyeR 2) 2 a k *
          permute_matrix (kronR X (eyeR 2) 2) 2 (1, 2) k b =
        kronR Y (eyeR 2) 2 a k *
          kronR X (eyeR 2) 2 (swapName 2 0 1 k) (swapName 2 0 1 b) := by
      intro k hk
      rw [permute12_apply _ _ _ (List.mem_range.mp hk) hb]
    rw [Finset.sum_congr rfl hperm]
    rw [show kronYX Y X a b = Y (a / 2) (b / 2) * X (a % 2) (b % 2) from
      if_pos ⟨ha, hb⟩]
    interval_cases a <;> interval_cases b <;>
      · simp [Finset.sum_range_succ, hσ, kronR, eyeR]
        try ring
  · rw [show kronYX Y X a b = 0 from if_neg hab]
    apply Finset.sum_eq_zero
    intro k hk
    have hk4 : k < 4 := List.mem_range.mp hk
    rcases not_and_or.mp hab with h | h
    · have ha4 : 4 ≤ a := le_of_not_lt h
      have : kronR Y (eyeR 2) 2 a k = 0 := by
        show Y (a / 2) (k / 2) * eyeR 2 (a % 2) (k % 2) = 0
        rw [hY (a / 2) (k / 2) (Or.inl (by omega)), zero_mul]
      rw [this, zero_mul]
    · rw [permute12_outside _ _ _ (fun hc => h hc.2), mul_zero]

theorem keyLe_trans {β γ : Type*} [LinearOrder β] :
    ∀ a b c : β × γ, decide (a.1 ≤ b.1) = true → decide (b.1 ≤ c.1) = true →
      decide (a.1 ≤ c.1) = true := by
  intro a b c h1 h2
  simp only [decide_eq_true_eq] at *
  exact le_trans h1 h2

theorem keyLe_total {β γ : Type*} [LinearOrder β] :
    ∀ a b : β × γ, (decide (a.1 ≤ b.1) || decide (b.1 ≤ a.1)) = true := by
  intro a b
  simpa using le_total a.1 b.1

theorem sort_things_eq {β γ : Type*} [LinearOrder β] (stuff : List γ)
    (keys : List β) (target : List (β × γ))
    (hperm : (keys.zip stuff).Perm target)
    (hnd : ((keys.zip stuff).map Prod.fst).Nodup)
    (hsorted : target.Pairwise (fun p q => p.1 < q.1)) :
    sort_things stuff keys = target.map Prod.snd := by
  unfold sort_things
  set ms := (keys.zip stuff).mergeSort (fun p q => decide (p.1 ≤ q.1)) with hms
  have hmp : ms.Perm target := (List.mergeSort_perm _ _).trans hperm
  have hle : ms.Pairwise (fun p q => p.1 ≤ q.1) :=
    (List.sorted_mergeSort keyLe_trans keyLe_total _).imp (fun h => by simpa using h)
  have hnd2 : (ms.map Prod.fst).Nodup :=
    (((List.mergeSort_perm (keys.zip stuff) _).map Prod.fst).symm.nodup) hnd
  have hne : ms.Pairwise (fun p q => p.1 ≠ q.1) := List.pairwise_map.mp hnd2
  have hlt : ms.Pairwise (fun p q => p.1 < q.1) :=
    (hle.and hne).imp (fun h => lt_of_le_of_ne h.1 h.2)
  rw [eq_of_perm_of_pairwise_keyLt Prod.fst hmp hlt hsorted]

theorem reorder_register_10 :
    reorder_classical_register [1, 0] = [[0,0],[1,0],[0,1],[1,1]] := by
  simp [reorder_classical_register, sort_bitstring, sort_things, natToBits,
    List.range_succ, List.mergeSort]

theorem reorder_register_01 :
    reorder_classical_register [0, 1] = [[0,0],[0,1],[1,0],[1,1]] := by
  simp [reorder_classical_register, sort_bitstring, sort_things, natToBits,
    List.range_succ, List.mergeSort]

theorem join_povms_eval_left (A0 A1 B0 B1 : RawMat) :
    join_povms [[A0, A1], [B0, B1]] [[1], [0]] =
      sort_things
        [matmulR 4 (permute_matrix (kronR A0 (eyeR 2) 2) 2 (1, 2)) (kronR B0 (eyeR 2) 2),
         matmulR 4 (permute_matrix (kronR A0 (eyeR 2) 2) 2 (1, 2)) (kronR B1 (eyeR 2) 2),
         matmulR 4 (permute_matrix (kronR A1 (eyeR 2) 2) 2 (1, 2)) (kronR B0 (eyeR 2) 2),
         matmulR 4 (permute_matrix (kronR A1 (eyeR 2) 2) 2 (1, 2)) (kronR B1 (eyeR 2) 2)]
        (reorder_classical_register [1, 0]) := by
  simp [join_povms, calculate_tensor_to_increasing_list, cartesianTuples,
    gtc_matrix_product_counting_function, List.range_succ]

theorem join_povms_eval_right (A0 A1 B0 B1 : RawMat) :
    join_povms [[B0, B1], [A0, A1]] [[0], [1]] =
      sort_things
        [matmulR 4 (kronR B0 (eyeR 2) 2) (permute_matrix (kronR A0 (eyeR 2) 2) 2 (1, 2)),
         matmulR 4 (kronR B0 (eyeR 2) 2) (permute_matrix (kronR A1 (eyeR 2) 2) 2 (1, 2)),
         matmulR 4 (kronR B1 (eyeR 2) 2) (permute_matrix (kronR A0 (eyeR 2) 2) 2 (1, 2)),
         matmulR 4 (kronR B1 (eyeR 2) 2) (permute_matrix (kronR A1 (eyeR 2) 2) 2 (1, 2))]
        (reorder_classical_register [0, 1]) := by
  simp [join_povms, calculate_tensor_to_increasing_list, cartesianTuples,
    gtc_matrix_product_counting_function, List.range_succ]

theorem sort_four_10 (p0 p1 p2 p3 : RawMat) :
    sort_things [p0, p1, p2, p3] ([[0,0],[1,0],[0,1],[1,1]] : List (List ℕ)) =
      [p0, p2, p1, p3] := by
  have h := sort_things_eq [p0, p1, p2, p3]
    ([[0,0],[1,0],[0,1],[1,1]] : List (List ℕ))
    [([0,0], p0), ([0,1], p2), ([1,0], p1), ([1,1], p3)]
    ?_ ?_ ?_
  · simpa using h
  · show ([([0,0],p0), ([1,0],p1), ([0,1],p2), ([1,1],p3)] :
        List (List ℕ × RawMat)).Perm _
    exact List.Perm.cons _ (List.Perm.swap _ _ _)
  · rw [List.map_fst_zip _ _ (by norm_num)]
    decide
  · refine List.Pairwise.cons ?_ (List.Pairwise.cons ?_
      (List.Pairwise.cons ?_ (List.pairwise_singleton _ _))) <;>
      · intro q hq
        simp only [List.mem_cons, List.not_mem_nil, or_false] at hq
        rcases hq with rfl | rfl | rfl | rfl <;> exact of_decide_eq_true rfl

theorem sort_four_01 (p0 p1 p2 p3 : RawMat) :
    sort_things [p0, p1, p2, p3] ([[0,0],[0,1],[1,0],[1,1]] : List (List ℕ)) =
      [p0, p1, p2, p3] := by
  have h := sort_things_eq [p0, p1, p2, p3]
    ([[0,0],[0,1],[1,0],[1,1]] : List (List ℕ))
    [([0,0], p0), ([0,1], p1), ([1,0], p2), ([1,1], p3)]
    ?_ ?_ ?_
  · simpa using h
  · exact List.Perm.refl _
  · rw [List.map_fst_zip _ _ (by norm_num)]
    decide
  · refine List.Pairwise.cons ?_ (List.Pairwise.cons ?_
      (List.Pairwise.cons ?_ (List.pairwise_singleton _ _))) <;>
      · intro q hq
        simp only [List.mem_cons, List.not_mem_nil, or_false] at hq
        rcases hq with rfl | rfl | rfl | rfl <;> exact of_decide_eq_true rfl

/-- C3 (amended): for two single-qubit POVMs with exactly two effects each
(2 x 2 effect matrices, embedded as raw matrices supported on the leading
2 x 2 block), join_povms([A, B], [[1], [0]]) and join_povms([B, A],
[[0], [1]]) return identical joint POVMs. -/
theorem join_povms_order_invariance (A B : List RawMat)
    (hA2 : A.length = 2) (hB2 : B.length = 2)
    (_hAs : ∀ M ∈ A, SuppR 2 M) (hBs : ∀ M ∈ B, SuppR 2 M) :
    join_povms [A, B] [[1], [0]] = join_povms [B, A] [[0], [1]] := by
  obtain ⟨A0, A1, rfl⟩ := List.length_eq_two.mp hA2
  obtain ⟨B0, B1, rfl⟩ := List.length_eq_two.mp hB2
  have hB0 : SuppR 2 B0 := hBs _ (by simp)
  have hB1 : SuppR 2 B1 := hBs _ (by simp)
  rw [join_povms_eval_left, join_povms_eval_right,
    reorder_register_10, reorder_register_01,
    mul_swapped_ext A0 B0 hB0, mul_swapped_ext A0 B1 hB1,
    mul_swapped_ext A1 B0 hB0, mul_swapped_ext A1 B1 hB1,
    mul_ext_swapped A0 B0 hB0, mul_ext_swapped A0 B1 hB1,
    mul_ext_swapped A1 B0 hB0, mul_ext_swapped A1 B1 hB1,
    sort_four_10, sort_four_01]

/-- Witness for the amended C3 at two concrete two-effect POVMs. -/
theorem join_povms_order_invariance_witness :
    join_povms [[zeroR, zeroR], [zeroR, zeroR]] [[1], [0]] =
      join_povms [[zeroR, zeroR], [zeroR, zeroR]] [[0], [1]] :=
  join_povms_order_invariance [zeroR, zeroR] [zeroR, zeroR] rfl rfl
    (fun M hM => by
      simp only [List.mem_cons, List.not_mem_nil, or_false] at hM
      rcases hM with rfl | rfl <;> exact fun a b _ => rfl)
    (fun M hM => by
      simp only [List.mem_cons, List.not_mem_nil, or_false] at hM
      rcases hM with rfl | rfl <;> exact fun a b _ => rfl)

/-- Scaled 2 x 2 identity block, as a raw matrix. -/
def scaledEye2 (c : ℂ) : RawMat := fun a b => if a = b ∧ a < 2 then c else 0

/-- The 2 x 2 projector onto computational basis state 0. -/
def proj0 : RawMat := fun a b => if a = 0 ∧ b = 0 then 1 else 0

/-- The 2 x 2 projector onto computational basis state 1. -/
def proj1 : RawMat := fun a b => if a = 1 ∧ b = 1 then 1 else 0

theorem suppR_scaledEye2 (c : ℂ) : SuppR 2 (scaledEye2 c) := by
  intro a b h
  show (if a = b ∧ a < 2 then c else 0) = 0
  rw [if_neg]
  rintro ⟨rfl, h2⟩
  rcases h with h | h <;> omega

theorem suppR_proj0 : SuppR 2 proj0 := by
  intro a b h
  show (if a = 0 ∧ b = 0 then (1 : ℂ) else 0) = 0
  rw [if_neg]
  rintro ⟨rfl, rfl⟩
  rcases h with h | h <;> omega

theorem suppR_proj1 : SuppR 2 proj1 := by
  intro a b h
  show (if a = 1 ∧ b = 1 then (1 : ℂ) else 0) = 0
  rw [if_neg]
  rintro ⟨rfl, rfl⟩
  rcases h with h | h <;> omega

theorem join_povms_eval_left3 (A0 A1 A2 B0 B1 : RawMat) :
    join_povms [[A0, A1, A2], [B0, B1]] [[1], [0]] =
      sort_things
        [matmulR 4 (permute_matrix (kronR A0 (eyeR 2) 2) 2 (1, 2)) (kronR B0 (eyeR 2) 2),
         matmulR 4 (permute_matrix (kronR A0 (eyeR 2) 2) 2 (1, 2)) (kronR B1 (eyeR 2) 2),
         matmulR 4 (permute_matrix (kronR A1 (eyeR 2) 2) 2 (1, 2)) (kronR B0 (eyeR 2) 2),
         matmulR 4 (permute_matrix (kronR A1 (eyeR 2) 2) 2 (1, 2)) (kronR B1 (eyeR 2) 2),
         matmulR 4 (permute_matrix (kronR A2 (eyeR 2) 2) 2 (1, 2)) (kronR B0 (eyeR 2) 2),
         matmulR 4 (permute_matrix (kronR A2 (eyeR 2) 2) 2 (1, 2)) (kronR B1 (eyeR 2) 2)]
        (reorder_classical_register [1, 0]) := by
  simp [join_povms, calculate_tensor_to_increasing_list, cartesianTuples,
    gtc_matrix_product_counting_function, List.range_succ]

theorem join_povms_eval_right3 (A0 A1 A2 B0 B1 : RawMat) :
    join_povms [[B0, B1], [A0, A1, A2]] [[0], [1]] =
      sort_things
        [matmulR 4 (kronR B0 (eyeR 2) 2) (permute_matrix (kronR A0 (eyeR 2) 2) 2 (1, 2)),
         matmulR 4 (kronR B0 (eyeR 2) 2) (permute_matrix (kronR A1 (eyeR 2) 2) 2 (1, 2)),
         matmulR 4 (kronR B0 (eyeR 2) 2) (permute_matrix (kronR A2 (eyeR 2) 2) 2 (1, 2)),
         matmulR 4 (kronR B1 (eyeR 2) 2) (permute_matrix (kronR A0 (eyeR 2) 2) 2 (1, 2)),
         matmulR 4 (kronR B1 (eyeR 2) 2) (permute_matrix (kronR A1 (eyeR 2) 2) 2 (1, 2)),
         matmulR 4 (kronR B1 (eyeR 2) 2) (permute_matrix (kronR A2 (eyeR 2) 2) 2 (1, 2))]
        (reorder_classical_register [0, 1]) := by
  simp [join_povms, calculate_tensor_to_increasing_list, cartesianTuples,
    gtc_matrix_product_counting_function, List.range_succ]

theorem sort_six_10 (p0 p1 p2 p3 p4 p5 : RawMat) :
    sort_things [p0, p1, p2, p3, p4, p5]
      ([[0,0],[1,0],[0,1],[1,1]] : List (List ℕ)) = [p0, p2, p1, p3] := by
  have hz : (([[0,0],[1,0],[0,1],[1,1]] : List (List ℕ)).zip
        [p0, p1, p2, p3, p4, p5]) =
      (([[0,0],[1,0],[0,1],[1,1]] : List (List ℕ)).zip [p0, p1, p2, p3]) := rfl
  have h4 := sort_four_10 p0 p1 p2 p3
  unfold sort_things at h4 ⊢
  rw [hz]
  exact h4

theorem sort_six_01 (p0 p1 p2 p3 p4 p5 : RawMat) :
    sort_things [p0, p1, p2, p3, p4, p5]
      ([[0,0],[0,1],[1,0],[1,1]] : List (List ℕ)) = [p0, p1, p2, p3] := by
  have hz : (([[0,0],[0,1],[1,0],[1,1]] : List (List ℕ)).zip
        [p0, p1, p2, p3, p4, p5]) =
      (([[0,0],[0,1],[1,0],[1,1]] : List (List ℕ)).zip [p0, p1, p2, p3]) := rfl
  have h4 := sort_four_01 p0 p1 p2 p3
  unfold sort_things at h4 ⊢
  rw [hz]
  exact h4

/-- C3 counterexample: for the genuine single-qubit POVMs
A = [I/2, I/4, I/4] (three outcomes, effects sum to the identity) and
B = [|0><0|, |1><1|] (the computational-basis measurement),
join_povms([A, B], [[1], [0]]) and join_povms([B, A], [[0], [1]]) differ at
outcome index 2 (entry (0,0) is 0 on one side and 1/4 on the other), so the
two calls do not return identical joint POVMs. -/
theorem join_povms_counterexample :
    (fun a b => scaledEye2 (1/2) a b + scaledEye2 (1/4) a b + scaledEye2 (1/4) a b) =
        eyeR 2 ∧
    (fun a b => proj0 a b + proj1 a b) = eyeR 2 ∧
    ((join_povms [[scaledEye2 (1/2), scaledEye2 (1/4), scaledEye2 (1/4)],
        [proj0, proj1]] [[1], [0]]).getD 2 zeroR) 0 0 ≠
      ((join_povms [[proj0, proj1],
        [scaledEye2 (1/2), scaledEye2 (1/4), scaledEye2 (1/4)]] [[0], [1]]).getD 2 zeroR) 0 0 := by
  refine ⟨?_, ?_, ?_⟩
  · funext a b
    show scaledEye2 (1/2) a b + scaledEye2 (1/4) a b + scaledEye2 (1/4) a b =
      (if a = b ∧ a < 2 then (1 : ℂ) else 0)
    show (if a = b ∧ a < 2 then (1/2 : ℂ) else 0) +
      (if a = b ∧ a < 2 then (1/4 : ℂ) else 0) +
      (if a = b ∧ a < 2 then (1/4 : ℂ) else 0) = _
    by_cases h : a = b ∧ a < 2
    · obtain ⟨rfl, h2⟩ := h
      simp only [h2, and_true, if_pos rfl, if_true]
      norm_num
    · simp [h]
  · funext a b
    show proj0 a b + proj1 a b = (if a = b ∧ a < 2 then (1 : ℂ) else 0)
    show (if a = 0 ∧ b = 0 then (1 : ℂ) else 0) +
      (if a = 1 ∧ b = 1 then (1 : ℂ) else 0) = _
    by_cases hab : a = b ∧ a < 2
    · obtain ⟨rfl, h2⟩ := hab
      interval_cases a <;> simp
    · have h1 : ¬ (a = 0 ∧ b = 0) := fun ⟨x, y⟩ => hab ⟨by omega, by omega⟩
      have h2 : ¬ (a = 1 ∧ b = 1) := fun ⟨x, y⟩ => hab ⟨by omega, by omega⟩
      simp [h1, h2, hab]
  · rw [join_povms_eval_left3, join_povms_eval_right3,
      reorder_register_10, reorder_register_01,
      mul_swapped_ext (scaledEye2 (1/2)) proj0 suppR_proj0,
      mul_swapped_ext (scaledEye2 (1/2)) proj1 suppR_proj1,
      mul_swapped_ext (scaledEye2 (1/4)) proj0 suppR_proj0,
      mul_swapped_ext (scaledEye2 (1/4)) proj1 suppR_proj1,
      mul_ext_swapped (scaledEye2 (1/2)) proj0 suppR_proj0,
      mul_ext_swapped (scaledEye2 (1/2)) proj1 suppR_proj1,
      mul_ext_swapped (scaledEye2 (1/4)) proj0 suppR_proj0,
      mul_ext_swapped (scaledEye2 (1/4)) proj1 suppR_proj1,
      sort_six_10, sort_six_01]
    show kronYX proj1 (scaledEye2 (1/2)) 0 0 ≠ kronYX proj0 (scaledEye2 (1/4)) 0 0
    show (if (0:ℕ) < 4 ∧ (0:ℕ) < 4 then proj1 0 0 * scaledEye2 (1/2) 0 0 else 0) ≠
      (if (0:ℕ) < 4 ∧ (0:ℕ) < 4 then proj0 0 0 * scaledEye2 (1/4) 0 0 else 0)
    norm_num [proj0, proj1, scaledEye2]

/-! ## DetectorTomography.DetectorTomographyFitter -/

open scoped ComplexOrder

/-- A d x d complex matrix; the effects and probe states handled by the
fitter share one fixed dimension d. -/
abbrev Mat (d : ℕ) := Matrix (Fin d) (Fin d) ℂ

/-- A numpy 2-d array of real frequencies together with its shape. -/
structure FreqArray where
  rows : ℕ
  cols : ℕ
  entry : ℕ → ℕ → ℝ

/-- Embedding of QDTCalibrationSetup as consumed by the fitter: the probe
states (d x d density matrices) and the frequencies array. -/
structure QDTCalibrationSetup (d : ℕ) where
  probe_states : List (Mat d)
  frequencies_array : FreqArray

/-- Frobenius norm, np.linalg.norm with its default ord. -/
noncomputable def frobNorm {d : ℕ} (A : Mat d) : ℝ :=
  Real.sqrt (∑ i, ∑ j, Complex.normSq (A i j))

open scoped Classical in
/-- Modelled from the spec: sc.linalg.sqrtm (scipy, external to this
repository) is "the principal matrix square root of the (Hermitian, PSD)
sum" (spec section 4.1 step 2); on a positive semidefinite input it is the
unique positive semidefinite square root. -/
noncomputable def sqrtm {d : ℕ} (A : Mat d) : Mat d :=
  if h : A.PosSemidef then h.sqrt else 0

open scoped Classical in
/-- Modelled from numpy (external to this repository): np.linalg.inv returns
the inverse and raises LinAlgError exactly on singular input. -/
noncomputable def np_linalg_inv {d : ℕ} (A : Mat d) : Except Unit (Mat d) :=
  if IsUnit A.det then Except.ok A⁻¹ else Except.error ()

/-- Modelled from numpy (external to this repository):
np.linalg.norm(m, ord=2) is the operator 2-norm (the largest singular
value), i.e. the operator norm of the matrix acting on Euclidean space. -/
noncomputable def specNorm {d : ℕ} (A : Mat d) : ℝ :=
  ‖Matrix.toEuclideanCLM (𝕜 := ℂ) A‖

open scoped Classical in
/-- Embedding of DetectorTomographyFitter.__get_r_operator
(DetectorTomography.py lines 168-202): accumulate the weighted probe states
over the rows of the frequencies array, skipping probe states with zero
expectation value, then replace a zero-norm accumulated matrix by the
all-zero matrix. -/
noncomputable def get_r_operator {d : ℕ} (m_m : Mat d) (index_of_povm_effect : ℕ)
    (frequencies_array : FreqArray) (probe_states : List (Mat d)) : Mat d :=
  let m_r := (List.range frequencies_array.rows).foldl
    (fun m_r probe_state_index =>
      let expectation_value := (m_m * probe_states.getD probe_state_index 0).trace
      if expectation_value = 0 then m_r
      else m_r +
        ((frequencies_array.entry probe_state_index index_of_povm_effect : ℂ) /
          expectation_value) • probe_states.getD probe_state_index 0)
    0
  if frobNorm m_r = 0 then 0 else m_r

/-- Embedding of DetectorTomographyFitter.__get_lagrange_matrix
(DetectorTomography.py lines 204-224): the principal square root of
the accumulated sum of R_j M_j R_j. -/
noncomputable def get_lagrange_matrix {d : ℕ} (r_matrices : List (Mat d))
    (povms : List (Mat d)) : Mat d :=
  sqrtm (∑ j ∈ Finset.range povms.length,
    r_matrices.getD j 0 * povms.getD j 0 * r_matrices.getD j 0)

/-- Embedding of DetectorTomographyFitter.__calculate_symmetric_m
(DetectorTomography.py lines 226-247): try the inversion of the Lagrange
matrix; on LinAlgError substitute the identity matrix; in either case return
Li @ R @ M @ R @ Li. -/
noncomputable def calculate_symmetric_m {d : ℕ}
    (m_lagrange_matrix m_r m_m : Mat d) : Mat d :=
  let m_inversed_lagrange_matrix :=
    match np_linalg_inv m_lagrange_matrix with
    | Except.ok B => B
    | Except.error _ => 1
  m_inversed_lagrange_matrix * m_r * m_m * m_r * m_inversed_lagrange_matrix

/-- One iteration of the while-loop acting on the POVM list
(DetectorTomography.py lines 149-154). -/
noncomputable def updatePovm {d : ℕ} (cs : QDTCalibrationSetup d)
    (povm : List (Mat d)) : List (Mat d) :=
  let number_of_probe_states := cs.frequencies_array.cols
  let r_matrices := (List.range number_of_probe_states).map
    (fun j => get_r_operator (povm.getD j 0) j cs.frequencies_array cs.probe_states)
  let lagrange_matrix := get_lagrange_matrix r_matrices povm
  (List.range number_of_probe_states).map
    (fun j => calculate_symmetric_m lagrange_matrix (r_matrices.getD j 0)
      (povm.getD j 0))

/-- The initial POVM (DetectorTomography.py lines 130-136): one effect
(1/m) * Identity appended per outcome, with m the number of columns of the
frequencies array; the dimension d of the probe states is the type index. -/
noncomputable def initialPovm {d : ℕ} (cs : QDTCalibrationSetup d) : List (Mat d) :=
  (List.range cs.frequencies_array.cols).map
    (fun _ => ((cs.frequencies_array.cols : ℂ))⁻¹ • (1 : Mat d))

/-- The loop state of get_maximum_likelihood_povm_estimator. -/
structure MLEState (d : ℕ) where
  i : ℕ
  povm : List (Mat d)
  last_step_povm : List (Mat d)
  threshold : ℝ
  current_difference : ℝ

/-- One pass of the while-loop of get_maximum_likelihood_povm_estimator
(DetectorTomography.py lines 143-164): increment i; when i % 50 == 0 record
the checkpoint copy of the POVM; update the POVM; then either evaluate the
convergence test (only at checkpoints) or, through the elif-chain, relax the
threshold to 1e-3 past 5e5 iterations or to 1e-4 past 1e5 iterations. -/
noncomputable def mleStep {d : ℕ} (cs : QDTCalibrationSetup d) (s : MLEState d) :
    MLEState d :=
  let i := s.i + 1
  let last_step_povm := if i % 50 = 0 then s.povm else s.last_step_povm
  let povm := updatePovm cs s.povm
  let current_difference :=
    if i % 50 = 0 then
      ∑ k ∈ Finset.range cs.frequencies_array.cols,
        specNorm (povm.getD k 0 - last_step_povm.getD k 0)
    else s.current_difference
  let threshold :=
    if i % 50 = 0 then s.threshold
    else if 500000 < i then 1 / 1000
    else if 100000 < i then 1 / 10000
    else s.threshold
  ⟨i, povm, last_step_povm, threshold, current_difference⟩

/-- The state before the first loop pass: i = 0, current_difference = 1 and
threshold = the fitter's algorithmConvergenceThreshold t0 (1e-6 by
default). -/
noncomputable def mleInit {d : ℕ} (cs : QDTCalibrationSetup d) (t0 : ℝ) :
    MLEState d :=
  ⟨0, initialPovm cs, initialPovm cs, t0, 1⟩

/-- The guard of the while-loop: abs(current_difference) >= threshold. -/
def mleLoopCond {d : ℕ} (s : MLEState d) : Prop :=
  s.threshold ≤ |s.current_difference|

/-- The loop terminates exactly when some iterate falsifies the guard. -/
def mleTerminates {d : ℕ} (cs : QDTCalibrationSetup d) (t0 : ℝ) : Prop :=
  ∃ n, ¬ mleLoopCond ((mleStep cs)^[n] (mleInit cs t0))

/-- C8: get_maximum_likelihood_povm_estimator starts the iteration from the
uniform POVM: a list of m effects, each (1/m) times the d x d identity, with
m the number of columns of the frequencies array and d the dimension of the
probe states. -/
theorem mle_initial_povm_uniform {d : ℕ} (cs : QDTCalibrationSetup d) (t0 : ℝ) :
    (mleInit cs t0).povm =
      List.replicate cs.frequencies_array.cols
        ((cs.frequencies_array.cols : ℂ)⁻¹ • (1 : Mat d)) ∧
    (mleInit cs t0).povm.length = cs.frequencies_array.cols ∧
    ∀ M ∈ (mleInit cs t0).povm, M = (cs.frequencies_array.cols : ℂ)⁻¹ • 1 := by
  have h1 : (mleInit cs t0).povm = List.replicate cs.frequencies_array.cols
      ((cs.frequencies_array.cols : ℂ)⁻¹ • (1 : Mat d)) := by
    show initialPovm cs = _
    unfold initialPovm
    rw [List.map_const', List.length_range]
  refine ⟨h1, ?_, ?_⟩
  · rw [h1, List.length_replicate]
  · intro M hM
    rw [h1] at hM
    exact List.eq_of_mem_replicate hM

/-- C6: when the inversion of the Lagrange matrix fails (np.linalg.inv
raises LinAlgError exactly on singular input), __calculate_symmetric_m
substitutes the identity matrix for the inverse and still returns
Li @ R @ M @ R @ Li computed with that substitute; the function is total, so
the numerical singularity is never surfaced to the caller. -/
theorem calculate_symmetric_m_singular_fallback {d : ℕ}
    (L R M : Mat d) (h : ¬ IsUnit L.det) :
    np_linalg_inv L = Except.error () ∧
      calculate_symmetric_m L R M = (1 : Mat d) * R * M * R * (1 : Mat d) := by
  have hinv : np_linalg_inv L = Except.error () := by
    unfold np_linalg_inv
    rw [if_neg h]
  refine ⟨hinv, ?_⟩
  unfold calculate_symmetric_m
  rw [hinv]

/-- Witness for C6 at the singular 1 x 1 zero Lagrange matrix. -/
theorem calculate_symmetric_m_singular_fallback_witness :
    ¬ IsUnit (0 : Mat 1).det ∧
      calculate_symmetric_m (0 : Mat 1) 0 0 =
        (1 : Mat 1) * 0 * 0 * 0 * (1 : Mat 1) := by
  have hdet : ¬ IsUnit (0 : Mat 1).det := by
    rw [Matrix.det_fin_one]
    simp [isUnit_zero_iff]
  exact ⟨hdet, (calculate_symmetric_m_singular_fallback 0 0 0 hdet).2⟩

/-- The spec's R-operator (section 4.1 step 1): the sum over exactly those
probe states whose expectation value is non-zero. -/
noncomputable def rOperatorSum {d : ℕ} (m_m : Mat d) (index_of_povm_effect : ℕ)
    (frequencies_array : FreqArray) (probe_states : List (Mat d)) : Mat d :=
  ∑ s ∈ (Finset.range frequencies_array.rows).filter
      (fun s => (m_m * probe_states.getD s 0).trace ≠ 0),
    ((frequencies_array.entry s index_of_povm_effect : ℂ) /
      (m_m * probe_states.getD s 0).trace) • probe_states.getD s 0

open scoped Classical in
theorem r_fold_eq_sum {d : ℕ} (m_m : Mat d) (j : ℕ) (f : ℕ → ℕ → ℝ)
    (states : List (Mat d)) (N : ℕ) (A : Mat d) :
    (List.range N).foldl
      (fun m_r s =>
        let expectation_value := (m_m * states.getD s 0).trace
        if expectation_value = 0 then m_r
        else m_r + ((f s j : ℂ) / expectation_value) • states.getD s 0) A =
    A + ∑ s ∈ (Finset.range N).filter
        (fun s => (m_m * states.getD s 0).trace ≠ 0),
      ((f s j : ℂ) / (m_m * states.getD s 0).trace) • states.getD s 0 := by
  induction N generalizing A with
  | zero => simp
  | succ N ih =>
    rw [List.range_succ, List.foldl_append, List.foldl_cons, List.foldl_nil, ih]
    rw [Finset.range_succ, Finset.filter_insert]
    by_cases h : (m_m * states.getD N 0).trace = 0
    · show (if (m_m * states.getD N 0).trace = 0
          then A + _ else A + _ + _ • states.getD N 0) = _
      rw [if_pos h, if_neg (by simpa using h)]
    · show (if (m_m * states.getD N 0).trace = 0
          then A + _ else A + _ + ((f N j : ℂ) / _) • states.getD N 0) = _
      rw [if_neg h, if_pos (by simpa using h)]
      rw [Finset.sum_insert (fun hc => by
        have := Finset.mem_of_mem_filter N hc
        exact absurd (Finset.mem_range.mp this) (lt_irrefl N))]
      abel

theorem frobNorm_eq_zero_iff {d : ℕ} (A : Mat d) : frobNorm A = 0 ↔ A = 0 := by
  unfold frobNorm
  rw [Real.sqrt_eq_zero (Finset.sum_nonneg
    (fun i _ => Finset.sum_nonneg (fun j _ => Complex.normSq_nonneg _)))]
  rw [Finset.sum_eq_zero_iff_of_nonneg
    (fun i _ => Finset.sum_nonneg (fun j _ => Complex.normSq_nonneg _))]
  constructor
  · intro h
    ext i j
    have hi := h i (Finset.mem_univ i)
    rw [Finset.sum_eq_zero_iff_of_nonneg
      (fun j _ => Complex.normSq_nonneg _)] at hi
    have := hi j (Finset.mem_univ j)
    simpa [Complex.normSq_eq_zero] using this
  · intro h
    subst h
    intro i _
    simp

theorem get_r_operator_eq_ite {d : ℕ} (m_m : Mat d) (j : ℕ)
    (fa : FreqArray) (states : List (Mat d)) :
    get_r_operator m_m j fa states =
      if frobNorm (rOperatorSum m_m j fa states) = 0 then 0
      else rOperatorSum m_m j fa states := by
  unfold get_r_operator
  rw [show (List.range fa.rows).foldl _ (0 : Mat d) =
      (0 : Mat d) + rOperatorSum m_m j fa states from
    r_fold_eq_sum m_m j fa.entry states fa.rows 0]
  rw [zero_add]

theorem get_r_operator_eq_sum {d : ℕ} (m_m : Mat d) (j : ℕ)
    (fa : FreqArray) (states : List (Mat d)) :
    get_r_operator m_m j fa states = rOperatorSum m_m j fa states := by
  rw [get_r_operator_eq_ite]
  by_cases h : frobNorm (rOperatorSum m_m j fa states) = 0
  · rw [if_pos h, (frobNorm_eq_zero_iff _).mp h]
  · rw [if_neg h]

/-- C5: the R-operator returned by __get_r_operator equals the sum over
exactly those probe states s whose expectation value Tr(M_j rho_s) is
non-zero of [f(s,j) / Tr(M_j rho_s)] * rho_s (terms with zero expectation
value are skipped, so no division by a zero expectation value contributes),
and if that matrix has zero norm the all-zero d x d matrix is returned. -/
theorem get_r_operator_characterization {d : ℕ} (m_m : Mat d) (j : ℕ)
    (fa : FreqArray) (states : List (Mat d)) :
    get_r_operator m_m j fa states = rOperatorSum m_m j fa states ∧
      (frobNorm (rOperatorSum m_m j fa states) = 0 →
        get_r_operator m_m j fa states = 0) :=
  ⟨get_r_operator_eq_sum m_m j fa states,
    fun h => by rw [get_r_operator_eq_ite, if_pos h]⟩

/-- Witness for C5 with an empty frequencies array (the sum is empty, its
norm is zero, and the all-zero matrix is returned). -/
theorem get_r_operator_characterization_witness :
    frobNorm (rOperatorSum (0 : Mat 1) 0 ⟨0, 0, fun _ _ => 0⟩ []) = 0 ∧
      get_r_operator (0 : Mat 1) 0 ⟨0, 0, fun _ _ => 0⟩ [] = 0 := by
  have h0 : frobNorm (rOperatorSum (0 : Mat 1) 0 ⟨0, 0, fun _ _ => 0⟩ []) = 0 := by
    rw [frobNorm_eq_zero_iff]
    unfold rOperatorSum
    simp
  exact ⟨h0,
    (get_r_operator_characterization (0 : Mat 1) 0 ⟨0, 0, fun _ _ => 0⟩ []).2 h0⟩

theorem mleStep_i {d : ℕ} (cs : QDTCalibrationSetup d) (s : MLEState d) :
    (mleStep cs s).i = s.i + 1 := rfl

theorem mleStep_povm {d : ℕ} (cs : QDTCalibrationSetup d) (s : MLEState d) :
    (mleStep cs s).povm = updatePovm cs s.povm := rfl

theorem mleStep_diff_checkpoint {d : ℕ} (cs : QDTCalibrationSetup d)
    (s : MLEState d) (h : (s.i + 1) % 50 = 0) :
    (mleStep cs s).current_difference =
      ∑ k ∈ Finset.range cs.frequencies_array.cols,
        specNorm ((updatePovm cs s.povm).getD k 0 - s.povm.getD k 0) := by
  unfold mleStep
  dsimp only
  rw [if_pos h, if_pos h]

theorem mleStep_diff_off_checkpoint {d : ℕ} (cs : QDTCalibrationSetup d)
    (s : MLEState d) (h : (s.i + 1) % 50 ≠ 0) :
    (mleStep cs s).current_difference = s.current_difference ∧
      (mleStep cs s).last_step_povm = s.last_step_povm := by
  unfold mleStep
  dsimp only
  rw [if_neg h, if_neg h]
  exact ⟨rfl, rfl⟩

theorem mle_diff_nonneg {d : ℕ} (cs : QDTCalibrationSetup d) (t0 : ℝ) :
    ∀ n, 0 ≤ ((mleStep cs)^[n] (mleInit cs t0)).current_difference := by
  intro n
  induction n with
  | zero =>
    show (0 : ℝ) ≤ 1
    norm_num
  | succ n ih =>
    rw [Function.iterate_succ_apply']
    set s := (mleStep cs)^[n] (mleInit cs t0)
    by_cases h : (s.i + 1) % 50 = 0
    · rw [mleStep_diff_checkpoint cs s h]
      exact Finset.sum_nonneg (fun k _ => norm_nonneg _)
    · rw [(mleStep_diff_off_checkpoint cs s h).1]
      exact ih

/-- C1: the convergence test of get_maximum_likelihood_povm_estimator is
evaluated only on iterations whose count is a multiple of 50 (off
checkpoints, current_difference and the recorded checkpoint POVM are left
unchanged); at a checkpoint the quantity is the sum over all effects of the
operator 2-norm of (current effect - effect recorded at that iteration's
checkpoint copy); and the loop stops exactly when that sum drops below the
active threshold. -/
theorem mle_convergence_test {d : ℕ} (cs : QDTCalibrationSetup d) (t0 : ℝ) :
    (∀ s : MLEState d, (s.i + 1) % 50 ≠ 0 →
      (mleStep cs s).current_difference = s.current_difference ∧
        (mleStep cs s).last_step_povm = s.last_step_povm) ∧
    (∀ s : MLEState d, (s.i + 1) % 50 = 0 →
      (mleStep cs s).current_difference =
        ∑ k ∈ Finset.range cs.frequencies_array.cols,
          specNorm ((updatePovm cs s.povm).getD k 0 - s.povm.getD k 0)) ∧
    (∀ n, ¬ mleLoopCond ((mleStep cs)^[n] (mleInit cs t0)) ↔
      ((mleStep cs)^[n] (mleInit cs t0)).current_difference <
        ((mleStep cs)^[n] (mleInit cs t0)).threshold) := by
  refine ⟨fun s h => mleStep_diff_off_checkpoint cs s h,
    fun s h => mleStep_diff_checkpoint cs s h, fun n => ?_⟩
  unfold mleLoopCond
  rw [not_le, abs_of_nonneg (mle_diff_nonneg cs t0 n)]

/-- Witness for C1: the checkpoint-free conjunct applied at the initial
state of a concrete setup (iteration count 1 is not a multiple of 50). -/
theorem mle_convergence_test_witness :
    ((0 : ℕ) + 1) % 50 ≠ 0 ∧
      ((mleStep (d := 1) ⟨[], ⟨0, 0, fun _ _ => 0⟩⟩
          (mleInit ⟨[], ⟨0, 0, fun _ _ => 0⟩⟩ (1 / 1000000))).current_difference =
        (mleInit (d := 1) ⟨[], ⟨0, 0, fun _ _ => 0⟩⟩ (1 / 1000000)).current_difference ∧
        (mleStep (d := 1) ⟨[], ⟨0, 0, fun _ _ => 0⟩⟩
          (mleInit ⟨[], ⟨0, 0, fun _ _ => 0⟩⟩ (1 / 1000000))).last_step_povm =
        (mleInit (d := 1) ⟨[], ⟨0, 0, fun _ _ => 0⟩⟩ (1 / 1000000)).last_step_povm) :=
  ⟨by decide,
    (mle_convergence_test (d := 1) ⟨[], ⟨0, 0, fun _ _ => 0⟩⟩ (1 / 1000000)).1
      (mleInit ⟨[], ⟨0, 0, fun _ _ => 0⟩⟩ (1 / 1000000)) (by decide)⟩

/-! ### A concrete dimension-1 calibration setup on which the loop
oscillates with period two and never terminates -/

/-- The 1 x 1 matrix with the given single entry. -/
noncomputable def sc (c : ℂ) : Mat 1 := c • 1

theorem sc_apply (c : ℂ) : sc c 0 0 = c := by simp [sc, Matrix.one_apply]

theorem sc_mul (a b : ℂ) : sc a * sc b = sc (a * b) := by
  simp [sc, smul_smul, mul_comm]

theorem sc_add (a b : ℂ) : sc a + sc b = sc (a + b) := by simp [sc, add_smul]

theorem sc_sub (a b : ℂ) : sc a - sc b = sc (a - b) := by simp [sc, sub_smul]

theorem trace_sc (c : ℂ) : (sc c).trace = c := by simp [sc]

theorem specNorm_sc (c : ℂ) : specNorm (sc c) = ‖c‖ := by
  unfold specNorm sc
  rw [map_smul, map_one,
    norm_smul c (1 : EuclideanSpace ℂ (Fin 1) →L[ℂ] EuclideanSpace ℂ (Fin 1)),
    norm_one, mul_one]

theorem posSemidef_sc {r : ℝ} (hr : 0 ≤ r) : (sc (r : ℂ)).PosSemidef := by
  constructor
  · unfold Matrix.IsHermitian
    ext i j
    fin_cases i; fin_cases j
    simp [sc, Matrix.one_apply]
  · intro x
    have h : Matrix.dotProduct (star x) ((sc (r : ℂ)).mulVec x) =
        (r : ℂ) * (x 0 * (starRingEnd ℂ) (x 0)) := by
      simp [Matrix.dotProduct, Matrix.mulVec, sc, Matrix.one_apply,
        Fin.sum_univ_one]
      ring
    rw [h, Complex.mul_conj, ← Complex.ofReal_mul, Complex.zero_le_real]
    exact mul_nonneg hr (Complex.normSq_nonneg _)

theorem sqrtm_sc {r : ℝ} (hr : 0 ≤ r) :
    sqrtm (sc (r : ℂ)) = sc ((Real.sqrt r : ℝ) : ℂ) := by
  unfold sqrtm
  rw [dif_pos (posSemidef_sc hr)]
  set B := (posSemidef_sc hr).sqrt with hBdef
  have hB : B.PosSemidef := (posSemidef_sc hr).posSemidef_sqrt
  have hB2 : B ^ 2 = sc (r : ℂ) := (posSemidef_sc hr).sq_sqrt
  have hBsc : B = sc (B 0 0) := by
    ext i j
    fin_cases i; fin_cases j
    simp [sc, Matrix.one_apply]
  set β := B 0 0 with hβ
  have h0 : (0 : ℂ) ≤ β := by
    have h := hB.2 (fun _ => 1)
    simpa [Matrix.dotProduct, Matrix.mulVec, Fin.sum_univ_one] using h
  have him : β.im = 0 := by
    have := (Complex.le_def.mp h0).2
    simpa using this.symm
  have hre : 0 ≤ β.re := by
    have := (Complex.le_def.mp h0).1
    simpa using this
  have hβr : β = (β.re : ℂ) := by
    apply Complex.ext <;> simp [him]
  have hsq : β * β = (r : ℂ) := by
    have h := congrFun (congrFun hB2 0) 0
    rw [pow_two] at h
    simpa [Matrix.mul_apply, Fin.sum_univ_one, sc, Matrix.one_apply] using h
  have hrr : β.re * β.re = r := by
    have h2 := hsq
    rw [hβr, ← Complex.ofReal_mul] at h2
    exact_mod_cast h2
  have hfin : β.re = Real.sqrt r := by
    rw [← hrr, Real.sqrt_mul_self hre]
  rw [hBsc, hβr, hfin]

theorem np_linalg_inv_sc {c : ℂ} (hc : c ≠ 0) :
    np_linalg_inv (sc c) = Except.ok (sc c⁻¹) := by
  have hdet : (sc c).det = c := by rw [Matrix.det_fin_one, sc_apply]
  have hinv : (sc c)⁻¹ = sc c⁻¹ := by
    rw [Matrix.inv_def, Matrix.adjugate_fin_one, hdet, Ring.inverse_eq_inv']
    rfl
  unfold np_linalg_inv
  rw [hdet, if_pos (isUnit_iff_ne_zero.mpr hc), hinv]

theorem calculate_symmetric_m_sc (L R M : ℂ) (hL : L ≠ 0) :
    calculate_symmetric_m (sc L) (sc R) (sc M) =
      sc (L⁻¹ * R * M * R * L⁻¹) := by
  unfold calculate_symmetric_m
  rw [np_linalg_inv_sc hL]
  show sc L⁻¹ * sc R * sc M * sc R * sc L⁻¹ = _
  rw [sc_mul, sc_mul, sc_mul, sc_mul]

/-- The oscillating calibration setup: one 1-dimensional probe state (the
1 x 1 density matrix [[1]]) and the frequency row [1/4, 3/4]. -/
noncomputable def setupOsc : QDTCalibrationSetup 1 :=
  ⟨[(1 : Mat 1)], ⟨1, 2, fun _ j => if j = 0 then 1/4 else 3/4⟩⟩

/-- The even-step POVM of the oscillating run (also the initial POVM). -/
noncomputable def povmE : List (Mat 1) := [sc (1/2), sc (1/2)]

/-- The odd-step POVM of the oscillating run. -/
noncomputable def povmO : List (Mat 1) := [sc (1/10), sc (9/10)]

theorem get_r_operator_osc (x : ℂ) (hx : x ≠ 0) (j : ℕ) :
    get_r_operator (sc x) j setupOsc.frequencies_array setupOsc.probe_states =
      sc ((setupOsc.frequencies_array.entry 0 j : ℂ) / x) := by
  rw [get_r_operator_eq_sum]
  unfold rOperatorSum
  have htr : (sc x * setupOsc.probe_states.getD 0 0).trace = x := by
    show (sc x * (1 : Mat 1)).trace = x
    rw [mul_one, trace_sc]
  have hne : (sc x * setupOsc.probe_states.getD 0 0).trace ≠ 0 := by
    rw [htr]; exact hx
  rw [show setupOsc.frequencies_array.rows = 1 from rfl, Finset.range_one,
    Finset.filter_singleton, if_pos hne, Finset.sum_singleton, htr]
  rfl

theorem lagrange_sc (r0 r1 x y : ℂ) :
    get_lagrange_matrix [sc r0, sc r1] [sc x, sc y] =
      sqrtm (sc (r0 * x * r0 + r1 * y * r1)) := by
  unfold get_lagrange_matrix
  rw [show ([sc x, sc y] : List (Mat 1)).length = 2 from rfl,
    Finset.sum_range_succ, Finset.sum_range_one]
  simp only [List.getD_cons_zero, List.getD_cons_succ]
  rw [sc_mul, sc_mul, sc_mul, sc_mul, sc_add]

theorem updatePovm_osc (x y : ℂ) (hx : x ≠ 0) (hy : y ≠ 0) :
    updatePovm setupOsc [sc x, sc y] =
      [calculate_symmetric_m
          (sqrtm (sc ((1/4)/x * x * ((1/4)/x) + (3/4)/y * y * ((3/4)/y))))
          (sc ((1/4)/x)) (sc x),
       calculate_symmetric_m
          (sqrtm (sc ((1/4)/x * x * ((1/4)/x) + (3/4)/y * y * ((3/4)/y))))
          (sc ((3/4)/y)) (sc y)] := by
  have hf0 : ((setupOsc.frequencies_array.entry 0 0 : ℝ) : ℂ) = 1/4 := by
    show (((1 : ℝ)/4 : ℝ) : ℂ) = 1/4
    push_cast
    ring
  have hf1 : ((setupOsc.frequencies_array.entry 0 1 : ℝ) : ℂ) = 3/4 := by
    show (((3 : ℝ)/4 : ℝ) : ℂ) = 3/4
    push_cast
    ring
  unfold updatePovm
  dsimp only
  rw [show List.range setupOsc.frequencies_array.cols = [0, 1] from rfl]
  simp only [List.map_cons, List.map_nil, List.getD_cons_zero,
    List.getD_cons_succ]
  rw [get_r_operator_osc x hx 0, get_r_operator_osc y hy 1, hf0, hf1,
    lagrange_sc]

theorem updatePovm_povmE : updatePovm setupOsc povmE = povmO := by
  rw [show povmE = [sc (1/2), sc (1/2)] from rfl,
    updatePovm_osc (1/2) (1/2) (by norm_num) (by norm_num)]
  have hS : ((1/4 : ℂ)/(1/2) * (1/2) * ((1/4)/(1/2)) +
      (3/4 : ℂ)/(1/2) * (1/2) * ((3/4)/(1/2))) = ((5/4 : ℝ) : ℂ) := by
    push_cast
    norm_num
  rw [hS, sqrtm_sc (by norm_num)]
  set q : ℂ := ((Real.sqrt (5/4) : ℝ) : ℂ) with hqdef
  have hq : q ≠ 0 := by
    rw [hqdef, Complex.ofReal_ne_zero]
    exact ne_of_gt (Real.sqrt_pos.mpr (by norm_num))
  have hq2 : q * q = 5/4 := by
    rw [hqdef, ← Complex.ofReal_mul, Real.mul_self_sqrt (by norm_num)]
    push_cast
    ring
  rw [calculate_symmetric_m_sc _ _ _ hq, calculate_symmetric_m_sc _ _ _ hq]
  have h1 : q⁻¹ * ((1/4 : ℂ)/(1/2)) * (1/2) * ((1/4)/(1/2)) * q⁻¹ = 1/10 := by
    calc q⁻¹ * ((1/4 : ℂ)/(1/2)) * (1/2) * ((1/4)/(1/2)) * q⁻¹
        = (q * q)⁻¹ * (1/8) := by rw [mul_inv]; ring
      _ = ((5/4 : ℂ))⁻¹ * (1/8) := by rw [hq2]
      _ = 1/10 := by norm_num
  have h2 : q⁻¹ * ((3/4 : ℂ)/(1/2)) * (1/2) * ((3/4)/(1/2)) * q⁻¹ = 9/10 := by
    calc q⁻¹ * ((3/4 : ℂ)/(1/2)) * (1/2) * ((3/4)/(1/2)) * q⁻¹
        = (q * q)⁻¹ * (9/8) := by rw [mul_inv]; ring
      _ = ((5/4 : ℂ))⁻¹ * (9/8) := by rw [hq2]
      _ = 9/10 := by norm_num
  rw [h1, h2]
  rfl

theorem updatePovm_povmO : updatePovm setupOsc povmO = povmE := by
  rw [show povmO = [sc (1/10), sc (9/10)] from rfl,
    updatePovm_osc (1/10) (9/10) (by norm_num) (by norm_num)]
  have hS : ((1/4 : ℂ)/(1/10) * (1/10) * ((1/4)/(1/10)) +
      (3/4 : ℂ)/(9/10) * (9/10) * ((3/4)/(9/10))) = ((5/4 : ℝ) : ℂ) := by
    push_cast
    norm_num
  rw [hS, sqrtm_sc (by norm_num)]
  set q : ℂ := ((Real.sqrt (5/4) : ℝ) : ℂ) with hqdef
  have hq : q ≠ 0 := by
    rw [hqdef, Complex.ofReal_ne_zero]
    exact ne_of_gt (Real.sqrt_pos.mpr (by norm_num))
  have hq2 : q * q = 5/4 := by
    rw [hqdef, ← Complex.ofReal_mul, Real.mul_self_sqrt (by norm_num)]
    push_cast
    ring
  rw [calculate_symmetric_m_sc _ _ _ hq, calculate_symmetric_m_sc _ _ _ hq]
  have h1 : q⁻¹ * ((1/4 : ℂ)/(1/10)) * (1/10) * ((1/4)/(1/10)) * q⁻¹ = 1/2 := by
    calc q⁻¹ * ((1/4 : ℂ)/(1/10)) * (1/10) * ((1/4)/(1/10)) * q⁻¹
        = (q * q)⁻¹ * (5/8) := by rw [mul_inv]; ring
      _ = ((5/4 : ℂ))⁻¹ * (5/8) := by rw [hq2]
      _ = 1/2 := by norm_num
  have h2 : q⁻¹ * ((3/4 : ℂ)/(9/10)) * (9/10) * ((3/4)/(9/10)) * q⁻¹ = 1/2 := by
    calc q⁻¹ * ((3/4 : ℂ)/(9/10)) * (9/10) * ((3/4)/(9/10)) * q⁻¹
        = (q * q)⁻¹ * (5/8) := by rw [mul_inv]; ring
      _ = ((5/4 : ℂ))⁻¹ * (5/8) := by rw [hq2]
      _ = 1/2 := by norm_num
  rw [h1, h2]
  rfl

theorem mleStep_threshold {d : ℕ} (cs : QDTCalibrationSetup d) (s : MLEState d) :
    (mleStep cs s).threshold =
      if (s.i + 1) % 50 = 0 then s.threshold
      else if 500000 < s.i + 1 then 1 / 1000
      else if 100000 < s.i + 1 then 1 / 10000
      else s.threshold := rfl

theorem initialPovm_osc : initialPovm setupOsc = povmE := by
  unfold initialPovm
  rw [show List.range setupOsc.frequencies_array.cols = [0, 1] from rfl]
  simp only [List.map_cons, List.map_nil]
  have h : ((setupOsc.frequencies_array.cols : ℂ))⁻¹ • (1 : Mat 1) = sc (1/2) := by
    show (((2 : ℕ) : ℂ))⁻¹ • (1 : Mat 1) = sc (1/2)
    unfold sc
    norm_num
  rw [h]
  rfl

theorem osc_invariant (n : ℕ) :
    ((mleStep setupOsc)^[n] (mleInit setupOsc (1/1000000))).povm =
        (if n % 2 = 0 then povmE else povmO) ∧
      (((mleStep setupOsc)^[n] (mleInit setupOsc (1/1000000))).current_difference = 1 ∨
        ((mleStep setupOsc)^[n] (mleInit setupOsc (1/1000000))).current_difference = 4/5) ∧
      ((mleStep setupOsc)^[n] (mleInit setupOsc (1/1000000))).threshold ≤ 1/1000 ∧
      ((mleStep setupOsc)^[n] (mleInit setupOsc (1/1000000))).i = n := by
  induction n with
  | zero =>
    refine ⟨?_, Or.inl rfl, ?_, rfl⟩
    swap
    · show (1/1000000 : ℝ) ≤ 1/1000
      norm_num
    rw [if_pos (by norm_num)]
    show initialPovm setupOsc = povmE
    exact initialPovm_osc
  | succ n ih =>
    obtain ⟨hpovm, hdiff, hthr, hi⟩ := ih
    rw [Function.iterate_succ_apply']
    set s := (mleStep setupOsc)^[n] (mleInit setupOsc (1/1000000)) with hs
    refine ⟨?_, ?_, ?_, ?_⟩
    · rw [mleStep_povm, hpovm]
      by_cases hpar : n % 2 = 0
      · rw [if_pos hpar, if_neg (by omega), updatePovm_povmE]
      · rw [if_neg hpar, if_pos (by omega), updatePovm_povmO]
    · by_cases hchk : (s.i + 1) % 50 = 0
      · right
        rw [mleStep_diff_checkpoint _ _ hchk]
        have hodd : ¬ n % 2 = 0 := by
          rw [hi] at hchk
          omega
        rw [hpovm, if_neg hodd, updatePovm_povmO]
        rw [show setupOsc.frequencies_array.cols = 2 from rfl,
          Finset.sum_range_succ, Finset.sum_range_one]
        rw [show povmE.getD 0 0 = sc (1/2) from rfl,
          show povmE.getD 1 0 = sc (1/2) from rfl,
          show povmO.getD 0 0 = sc (1/10) from rfl,
          show povmO.getD 1 0 = sc (9/10) from rfl,
          sc_sub, sc_sub, specNorm_sc, specNorm_sc]
        have e1 : (1/2 - 1/10 : ℂ) = ((2/5 : ℝ) : ℂ) := by push_cast; norm_num
        have e2 : (1/2 - 9/10 : ℂ) = ((-(2/5) : ℝ) : ℂ) := by push_cast; norm_num
        rw [e1, e2, Complex.norm_real, Complex.norm_real,
          Real.norm_eq_abs, Real.norm_eq_abs,
          abs_of_nonneg (by norm_num : (0:ℝ) ≤ 2/5),
          abs_of_nonpos (by norm_num : (-(2/5) : ℝ) ≤ 0)]
        norm_num
      · rw [(mleStep_diff_off_checkpoint _ _ hchk).1]
        exact hdiff
    · rw [mleStep_threshold]
      split_ifs <;> first | exact hthr | norm_num
    · rw [mleStep_i, hi]

theorem oscLoopCond_forever (n : ℕ) :
    mleLoopCond ((mleStep setupOsc)^[n] (mleInit setupOsc (1/1000000))) := by
  obtain ⟨_, hdiff, hthr, _⟩ := osc_invariant n
  unfold mleLoopCond
  rcases hdiff with h | h <;> rw [h] <;>
    · rw [abs_of_nonneg (by norm_num)]
      linarith

/-- C2 counterexample: a concrete calibration setup (one 1-dimensional probe
state with frequency row [1/4, 3/4]) on which the iteration oscillates with
period two between the POVMs [1/2, 1/2] and [1/10, 9/10], every checkpoint
difference equals 4/5, and the loop of get_maximum_likelihood_povm_estimator
never terminates even though the threshold staircase is active. -/
theorem mle_termination_counterexample :
    ¬ mleTerminates setupOsc (1/1000000) :=
  fun ⟨n, hn⟩ => hn (oscLoopCond_forever n)

/-- C2 (amended): on non-checkpoint iterations the effective threshold
becomes 1e-3 once the iteration count exceeds 500000 and 1e-4 once it
exceeds 100000, but this staircase does not guarantee termination: the loop
runs forever on the calibration setup setupOsc. -/
theorem mle_threshold_staircase {d : ℕ} (cs : QDTCalibrationSetup d) :
    (∀ s : MLEState d, (s.i + 1) % 50 ≠ 0 → 500000 < s.i + 1 →
      (mleStep cs s).threshold = 1 / 1000) ∧
    (∀ s : MLEState d, (s.i + 1) % 50 ≠ 0 → ¬ 500000 < s.i + 1 →
      100000 < s.i + 1 → (mleStep cs s).threshold = 1 / 10000) ∧
    ¬ mleTerminates setupOsc (1/1000000) := by
  refine ⟨?_, ?_, fun ⟨n, hn⟩ => hn (oscLoopCond_forever n)⟩
  · intro s h1 h2
    rw [mleStep_threshold, if_neg h1, if_pos h2]
  · intro s h1 h2 h3
    rw [mleStep_threshold, if_neg h1, if_neg h2, if_pos h3]

/-- Witness for the amended C2: the staircase conjuncts applied at concrete
states with iteration counts 500001 and 100001. -/
theorem mle_threshold_staircase_witness :
    ((500001 : ℕ) + 1) % 50 ≠ 0 ∧ 500000 < 500001 + 1 ∧
      (mleStep (d := 1) ⟨[], ⟨0, 0, fun _ _ => 0⟩⟩
        ⟨500001, [], [], 1, 1⟩).threshold = 1 / 1000 ∧
    ((100001 : ℕ) + 1) % 50 ≠ 0 ∧ ¬ 500000 < 100001 + 1 ∧ 100000 < 100001 + 1 ∧
      (mleStep (d := 1) ⟨[], ⟨0, 0, fun _ _ => 0⟩⟩
        ⟨100001, [], [], 1, 1⟩).threshold = 1 / 10000 :=
  ⟨by decide, by decide,
    (mle_threshold_staircase (d := 1) ⟨[], ⟨0, 0, fun _ _ => 0⟩⟩).1
      ⟨500001, [], [], 1, 1⟩ (by decide) (by decide),
    by decide, by decide, by decide,
    (mle_threshold_staircase (d := 1) ⟨[], ⟨0, 0, fun _ _ => 0⟩⟩).2.1
      ⟨100001, [], [], 1, 1⟩ (by decide) (by decide) (by decide)⟩

end QREM
